import Mathlib

set_option maxRecDepth 8000

/-!
Verification development for the Opportender tender-ingestion pipeline core.

Python strings are modelled as lists of unicode characters (`Str`); machine
floats are idealised as real numbers; `dict`/`None` optionality is modelled
with `Option`.  Character-class predicates (`str.strip`, `str.lower`, the
regex class `\s`) are modelled over their ASCII behaviour, which is noted at
each definition.
-/

namespace Tenderbot

/-- Characters of a Python `str`, modelled as a list of unicode characters. -/
abbrev Str := List Char

/-- Python whitespace test, modelling the ASCII members of the regex class
`\s` and of the `str.strip` default set: space, tab, newline, carriage
return, vertical tab, form feed. -/
def pyIsSpace (c : Char) : Bool :=
  c = ' ' || c = '\t' || c = '\n' || c = '\r' || c = Char.ofNat 11 || c = Char.ofNat 12

/-- ASCII lower-casing of one character, modelling `str.lower` on ASCII
(the shape of core `Char.toLower`). -/
def asciiLowerChar (c : Char) : Char :=
  if 65 ≤ c.toNat ∧ c.toNat ≤ 90 then Char.ofNat (c.toNat + 32) else c

/-- ASCII lower-casing of a string, modelling `str.lower`. -/
def asciiLower (s : Str) : Str := s.map asciiLowerChar

/-- Python `str.strip()`: drop leading and trailing whitespace. -/
def pyStrip (s : Str) : Str := (s.dropWhile pyIsSpace).rdropWhile pyIsSpace

/-- One pass of `re.sub(r"\s+", " ", s)` as a state machine; the flag
records whether the previous character was inside a whitespace run. -/
def collapseWsAux : Bool → Str → Str
  | _, [] => []
  | inRun, c :: rest =>
    if pyIsSpace c then (if inRun then [] else [' ']) ++ collapseWsAux true rest
    else c :: collapseWsAux false rest

/-- Embeds `re.sub(r"\s+", " ", s)`: every maximal whitespace run is
replaced by a single space. -/
def collapseWs (s : Str) : Str := collapseWsAux false s

/-- Embeds `normalize_ws` from `utils/helpers.py`: collapse whitespace runs
and trim; a missing value (`None`) becomes the empty string. -/
def normalize_ws (s : Option Str) : Str := collapseWs (pyStrip (s.getD []))

/-- Word splitter state machine; `cur` is the reversed current word. -/
def wsWordsAux (cur : Str) : Str → List Str
  | [] => if cur = [] then [] else [cur.reverse]
  | c :: rest =>
    if pyIsSpace c then (if cur = [] then [] else [cur.reverse]) ++ wsWordsAux [] rest
    else wsWordsAux (c :: cur) rest

/-- The maximal non-whitespace runs (words) of a string, in order.  Two
strings are "identical up to whitespace runs" exactly when their word lists
are equal. -/
def wsWords (s : Str) : List Str := wsWordsAux [] s

/-- Tests whether the second list begins with the first. -/
def leadsWith : Str → Str → Bool
  | [], _ => true
  | _ :: _, [] => false
  | a :: as, b :: bs => a = b && leadsWith as bs

/-- Python substring containment `needle in hay`. -/
def isSubstrOf (needle : Str) : Str → Bool
  | [] => leadsWith needle []
  | b :: bs => leadsWith needle (b :: bs) || isSubstrOf needle bs

/-! ### SHA-256 over byte lists

Embeds `hashlib.sha256(...).hexdigest()`.  Machine 32-bit words are `Nat`
values reduced `% 2^32`. -/

/-- Reduce modulo `2^32`. -/
def w32 (x : Nat) : Nat := x % 4294967296

/-- Right rotation of a 32-bit word by `n` places (for `0 < n < 32`). -/
def rotr32 (n x : Nat) : Nat := w32 (x / 2 ^ n + x * 2 ^ (32 - n))

/-- Bitwise complement of a 32-bit word. -/
def not32 (x : Nat) : Nat := 4294967295 - w32 x

def sha256ch (e f g : Nat) : Nat := (e &&& f) ^^^ (not32 e &&& g)

def sha256maj (a b c : Nat) : Nat := (a &&& b) ^^^ (a &&& c) ^^^ (b &&& c)

def bigSigma0 (x : Nat) : Nat := rotr32 2 x ^^^ rotr32 13 x ^^^ rotr32 22 x

def bigSigma1 (x : Nat) : Nat := rotr32 6 x ^^^ rotr32 11 x ^^^ rotr32 25 x

def smallSigma0 (x : Nat) : Nat := rotr32 7 x ^^^ rotr32 18 x ^^^ (x >>> 3)

def smallSigma1 (x : Nat) : Nat := rotr32 17 x ^^^ rotr32 19 x ^^^ (x >>> 10)

/-- The SHA-256 round constants. -/
def sha256K : List Nat :=
  [1116352408, 1899447441, 3049323471, 3921009573, 961987163, 1508970993,
   2453635748, 2870763221, 3624381080, 310598401, 607225278, 1426881987,
   1925078388, 2162078206, 2614888103, 3248222580, 3835390401, 4022224774,
   264347078, 604807628, 770255983, 1249150122, 1555081692, 1996064986,
   2554220882, 2821834349, 2952996808, 3210313671, 3336571891, 3584528711,
   113926993, 338241895, 666307205, 773529912, 1294757372, 1396182291,
   1695183700, 1986661051, 2177026350, 2456956037, 2730485921, 2820302411,
   3259730800, 3345764771, 3516065817, 3600352804, 4094571909, 275423344,
   430227734, 506948616, 659060556, 883997877, 958139571, 1322822218,
   1537002063, 1747873779, 1955562222, 2024104815, 2227730452, 2361852424,
   2428436474, 2756734187, 3204031479, 3329325298]

/-- The SHA-256 initial hash state. -/
def sha256H0 : List Nat :=
  [1779033703, 3144134277, 1013904242, 2773480762,
   1359893119, 2600822924, 528734635, 1541459225]

/-- One step of the message-schedule extension; the accumulator holds the
schedule produced so far, most recent word first. -/
def schedStep (acc : List Nat) : List Nat :=
  w32 (smallSigma1 (acc.getD 1 0) + acc.getD 6 0 + smallSigma0 (acc.getD 14 0) + acc.getD 15 0)
    :: acc

/-- Extend sixteen message words to the 64-word SHA-256 schedule. -/
def sha256schedule (ws : List Nat) : List Nat :=
  ((List.range 48).foldl (fun acc _ => schedStep acc) ws.reverse).reverse

/-- One SHA-256 compression round on the eight-word working state. -/
def compressRound (st : List Nat) (kw : Nat × Nat) : List Nat :=
  match st with
  | [a, b, c, d, e, f, g, h] =>
    let t1 := w32 (h + bigSigma1 e + sha256ch e f g + kw.1 + kw.2)
    let t2 := w32 (bigSigma0 a + sha256maj a b c)
    [w32 (t1 + t2), a, b, c, w32 (d + t1), e, f, g]
  | other => other

/-- Compress one 16-word block into the running hash state. -/
def compressBlock (h : List Nat) (block : List Nat) : List Nat :=
  let st := (sha256K.zip (sha256schedule block)).foldl compressRound h
  (h.zip st).map fun p => w32 (p.1 + p.2)

/-- Big-endian byte decomposition: `k` bytes of `n`. -/
def beBytes (k : Nat) (n : Nat) : List Nat :=
  (List.range k).reverse.map fun i => n / 256 ^ i % 256

/-- Fuel-based chunking worker; the fuel dominates the list length. -/
def chunksOfAux (n : Nat) : Nat → List α → List (List α)
  | 0, _ => []
  | _, [] => []
  | fuel + 1, x :: xs => (x :: xs).take n :: chunksOfAux n fuel (xs.drop (n - 1))

/-- Split a list into chunks of `n` elements (the last may be shorter);
meaningful for `0 < n`. -/
def chunksOf (n : Nat) (l : List α) : List (List α) := chunksOfAux n l.length l

/-- Assemble big-endian bytes into a word. -/
def wordOfBytes (bs : List Nat) : Nat := bs.foldl (fun acc b => acc * 256 + b) 0

/-- SHA-256 padding of a byte message. -/
def sha256pad (msg : List Nat) : List Nat :=
  msg ++ 0x80 :: List.replicate ((119 - msg.length % 64) % 64) 0 ++ beBytes 8 (msg.length * 8)

/-- The SHA-256 digest of a byte message, as 32 bytes. -/
def sha256bytes (msg : List Nat) : List Nat :=
  ((chunksOf 64 (sha256pad msg)).foldl
      (fun h blk => compressBlock h ((chunksOf 4 blk).map wordOfBytes)) sha256H0).flatMap
    (beBytes 4)

/-- A lowercase hexadecimal digit. -/
def hexChar (n : Nat) : Char := if n < 10 then Char.ofNat (48 + n) else Char.ofNat (87 + n)

/-- Two lowercase hex digits of a byte. -/
def hexByte (b : Nat) : Str := [hexChar (b / 16), hexChar (b % 16)]

/-- Embeds `hashlib.sha256(msg).hexdigest()`. -/
def sha256hexdigest (msg : List Nat) : Str := (sha256bytes msg).flatMap hexByte

/-- UTF-8 encoding of one unicode character. -/
def utf8EncodeChar (c : Char) : List Nat :=
  let n := c.toNat
  if n < 0x80 then [n]
  else if n < 0x800 then [0xc0 + n / 64, 0x80 + n % 64]
  else if n < 0x10000 then [0xe0 + n / 4096, 0x80 + n / 64 % 64, 0x80 + n % 64]
  else [0xf0 + n / 262144, 0x80 + n / 4096 % 64, 0x80 + n / 64 % 64, 0x80 + n % 64]

/-- UTF-8 encoding of a string, modelling `str.encode("utf-8")`. -/
def utf8Encode (s : Str) : List Nat := s.flatMap utf8EncodeChar

/-- Sanity test vector: SHA-256 of `"abc"` (FIPS 180-2 appendix B.1). -/
theorem sha256_test_abc :
    sha256hexdigest (utf8Encode (String.data "abc")) =
      String.data "ba7816bf8f01cfea414140de5dae2223b00361a396177a9cb410ff61f20015ad" := by
  decide

/-! ### URL canonicalisation

Embeds `urllib.parse` (CPython 3.11 semantics: `urlparse`, `parse_qsl` with
`keep_blank_values=True`, `urlencode` with its default `quote_plus`,
`urlunparse`) and `canonicalize_url` from `utils/helpers.py`. -/

/-- WHATWG C0-control-or-space characters, stripped from the left end of
a URL by `urlsplit` (the right end is deliberately preserved). -/
def isC0Space (c : Char) : Bool := c.toNat ≤ 0x20

/-- ASCII alphabetic test (`str.isascii() and str.isalpha()` on ASCII). -/
def isAsciiAlpha (c : Char) : Bool := ('A' ≤ c ∧ c ≤ 'Z') || ('a' ≤ c ∧ c ≤ 'z')

/-- The characters allowed in a URL scheme (`urllib.parse.scheme_chars`). -/
def isSchemeChar (c : Char) : Bool :=
  isAsciiAlpha c || ('0' ≤ c ∧ c ≤ '9') || c = '+' || c = '-' || c = '.'

/-- Split at the first occurrence of `c` (the separator is dropped);
`none` when `c` does not occur. -/
def splitFirstAt (c : Char) : Str → Option (Str × Str)
  | [] => none
  | d :: rest =>
    if d = c then some ([], rest)
    else (splitFirstAt c rest).map fun p => (d :: p.1, p.2)

/-- The result components of `urlsplit`. -/
structure SplitParts where
  scheme : Str
  netloc : Str
  path : Str
  query : Str
  fragment : Str
deriving DecidableEq

/-- The result components of `urlparse`. -/
structure UrlParts where
  scheme : Str
  netloc : Str
  path : Str
  params : Str
  query : Str
  fragment : Str
deriving DecidableEq

/-- Embeds `urllib.parse.urlsplit` (CPython 3.11+, `allow_fragments=True`):
left-strip C0-control/space, remove tab/CR/LF, split off scheme, netloc,
fragment and query.  `none` models the `ValueError` raised on unbalanced
brackets in the netloc. -/
def pyUrlsplit (url0 : Str) : Option SplitParts :=
  let url1 := url0.dropWhile isC0Space
  let url2 := url1.filter fun c => !(c = '\t' || c = '\r' || c = '\n')
  let schemeRest :=
    match url2.findIdx? (fun c => c = ':') with
    | some i =>
      if 0 < i ∧ (url2.take 1).all isAsciiAlpha ∧ (url2.take i).all isSchemeChar then
        (asciiLower (url2.take i), url2.drop (i + 1))
      else (([] : Str), url2)
    | none => (([] : Str), url2)
  let scheme := schemeRest.1
  let rest := schemeRest.2
  let netlocRest :=
    if rest.take 2 = ['/', '/'] then
      ((rest.drop 2).takeWhile (fun c => !(c = '/' || c = '?' || c = '#')),
        (rest.drop 2).dropWhile (fun c => !(c = '/' || c = '?' || c = '#')))
    else (([] : Str), rest)
  let netloc := netlocRest.1
  if (netloc.contains '[' && !netloc.contains ']')
      || (netloc.contains ']' && !netloc.contains '[') then none
  else
    let restFrag :=
      match splitFirstAt '#' netlocRest.2 with
      | some p => p
      | none => (netlocRest.2, [])
    let pathQuery :=
      match splitFirstAt '?' restFrag.1 with
      | some p => p
      | none => (restFrag.1, [])
    some ⟨scheme, netloc, pathQuery.1, pathQuery.2, restFrag.2⟩

/-- The schemes for which `urlparse` splits path parameters
(`urllib.parse.uses_params`). -/
def usesParamsSchemes : List Str :=
  [[], String.data "ftp", String.data "hdl", String.data "prospero", String.data "http",
   String.data "imap", String.data "https", String.data "shttp", String.data "rtsp",
   String.data "rtspu", String.data "sip", String.data "sips", String.data "mms",
   String.data "sftp", String.data "tel"]

/-- Index of the last occurrence of `c`. -/
def lastIdxOf (c : Char) (s : Str) : Option Nat :=
  (s.reverse.findIdx? (fun d => d = c)).map fun j => s.length - 1 - j

/-- Index of the first occurrence of `c` at position `start` or later. -/
def findIdxFrom (c : Char) (s : Str) (start : Nat) : Option Nat :=
  ((s.drop start).findIdx? (fun d => d = c)).map (· + start)

/-- Embeds `urllib.parse._splitparams`: split `;params` out of the last
path segment. -/
def splitParamsPy (path : Str) : Str × Str :=
  match lastIdxOf '/' path with
  | some j =>
    match findIdxFrom ';' path j with
    | some i => (path.take i, path.drop (i + 1))
    | none => (path, [])
  | none =>
    match path.findIdx? (fun d => d = ';') with
    | some i => (path.take i, path.drop (i + 1))
    | none => (path, [])

/-- Embeds `urllib.parse.urlparse`. -/
def pyUrlparse (u : Str) : Option UrlParts :=
  (pyUrlsplit u).map fun sp =>
    if sp.scheme ∈ usesParamsSchemes ∧ sp.path.contains ';' then
      let pr := splitParamsPy sp.path
      ⟨sp.scheme, sp.netloc, pr.1, pr.2, sp.query, sp.fragment⟩
    else ⟨sp.scheme, sp.netloc, sp.path, [], sp.query, sp.fragment⟩

/-- Python `str.split(sep)` for a one-character separator (keeps empty
pieces, `"" -> [""]`). -/
def splitOnChar (c : Char) : Str → List Str
  | [] => [[]]
  | d :: rest =>
    if d = c then [] :: splitOnChar c rest
    else
      match splitOnChar c rest with
      | [] => [[d]]
      | p :: ps => (d :: p) :: ps

def isHexDigitC (c : Char) : Bool :=
  ('0' ≤ c ∧ c ≤ '9') || ('a' ≤ c ∧ c ≤ 'f') || ('A' ≤ c ∧ c ≤ 'F')

def hexVal (c : Char) : Nat :=
  if c ≤ '9' then c.toNat - 48 else if c ≤ 'F' then c.toNat - 55 else c.toNat - 87

/-- Embeds `urllib.parse.unquote_to_bytes` on one ASCII segment: a `%`
followed by two hex digits becomes one byte, anything else stays as its
ASCII byte. -/
def pctToBytes : Str → List Nat
  | [] => []
  | '%' :: a :: b :: rest =>
    if isHexDigitC a && isHexDigitC b then (hexVal a * 16 + hexVal b) :: pctToBytes rest
    else '%'.toNat :: pctToBytes (a :: b :: rest)
  | c :: rest => c.toNat :: pctToBytes rest

/-- The U+FFFD replacement character. -/
def replChar : Char := Char.ofNat 0xfffd

def isContB (b : Nat) : Bool := 0x80 ≤ b && b ≤ 0xbf

/-- Valid second byte of a three-byte UTF-8 sequence led by `b`. -/
def cont2ok (b b2 : Nat) : Bool :=
  if b = 0xe0 then 0xa0 ≤ b2 && b2 ≤ 0xbf
  else if b = 0xed then 0x80 ≤ b2 && b2 ≤ 0x9f
  else isContB b2

/-- Valid second byte of a four-byte UTF-8 sequence led by `b`. -/
def cont4ok (b b2 : Nat) : Bool :=
  if b = 0xf0 then 0x90 ≤ b2 && b2 ≤ 0xbf
  else if b = 0xf4 then 0x80 ≤ b2 && b2 ≤ 0x8f
  else isContB b2

/-- UTF-8 decoding with `errors="replace"`: each maximal invalid
subsequence becomes one U+FFFD, following the CPython/&Unicode
best-practice substitution that CPython's decoder implements. -/
def utf8DecodeReplace : List Nat → Str
  | [] => []
  | b :: rest =>
    if b ≤ 0x7f then Char.ofNat b :: utf8DecodeReplace rest
    else if 0xc2 ≤ b && b ≤ 0xdf then
      match rest with
      | b2 :: rest2 =>
        if isContB b2 then
          Char.ofNat ((b - 0xc0) * 64 + (b2 - 0x80)) :: utf8DecodeReplace rest2
        else replChar :: utf8DecodeReplace (b2 :: rest2)
      | [] => [replChar]
    else if 0xe0 ≤ b && b ≤ 0xef then
      match rest with
      | b2 :: b3 :: rest2 =>
        if cont2ok b b2 && isContB b3 then
          Char.ofNat ((b - 0xe0) * 4096 + (b2 - 0x80) * 64 + (b3 - 0x80)) ::
            utf8DecodeReplace rest2
        else if cont2ok b b2 then replChar :: utf8DecodeReplace (b3 :: rest2)
        else replChar :: utf8DecodeReplace (b2 :: b3 :: rest2)
      | [b2] => if cont2ok b b2 then [replChar] else [replChar, replChar]
      | [] => [replChar]
    else if 0xf0 ≤ b && b ≤ 0xf4 then
      match rest with
      | b2 :: b3 :: b4 :: rest2 =>
        if cont4ok b b2 && isContB b3 && isContB b4 then
          Char.ofNat ((b - 0xf0) * 262144 + (b2 - 0x80) * 4096 + (b3 - 0x80) * 64 + (b4 - 0x80))
            :: utf8DecodeReplace rest2
        else if cont4ok b b2 && isContB b3 then replChar :: utf8DecodeReplace (b4 :: rest2)
        else if cont4ok b b2 then replChar :: utf8DecodeReplace (b3 :: b4 :: rest2)
        else replChar :: utf8DecodeReplace (b2 :: b3 :: b4 :: rest2)
      | [b2, b3] =>
        if cont4ok b b2 && isContB b3 then [replChar]
        else if cont4ok b b2 then [replChar, replChar]
        else replChar :: utf8DecodeReplace [b2, b3]
      | [b2] => if cont4ok b b2 then [replChar] else replChar :: utf8DecodeReplace [b2]
      | [] => [replChar]
    else replChar :: utf8DecodeReplace rest

/-- Split a string into maximal ASCII runs (`Sum.inl`) and single
non-ASCII characters (`Sum.inr`); `cur` is the reversed current run. -/
def asciiRunsAux (cur : Str) : Str → List (Str ⊕ Char)
  | [] => if cur = [] then [] else [Sum.inl cur.reverse]
  | c :: rest =>
    if c.toNat ≤ 127 then asciiRunsAux (c :: cur) rest
    else (if cur = [] then [] else [Sum.inl cur.reverse]) ++ Sum.inr c :: asciiRunsAux [] rest

/-- Embeds `urllib.parse.unquote(s)` with `encoding="utf-8"`,
`errors="replace"`: percent-decode each maximal ASCII run to bytes and
UTF-8 decode it; non-ASCII characters pass through. -/
def pyUnquote (s : Str) : Str :=
  if s.contains '%' then
    (asciiRunsAux [] s).flatMap fun seg =>
      match seg with
      | Sum.inl run => utf8DecodeReplace (pctToBytes run)
      | Sum.inr c => [c]
  else s

/-- Python `str.replace("+", " ")` used by `parse_qsl`. -/
def plusToSpace (s : Str) : Str := s.map fun c => if c = '+' then ' ' else c

/-- Embeds `urllib.parse.parse_qsl(qs, keep_blank_values=True)` with the
default separator `&`. -/
def parse_qsl (qs : Str) : List (Str × Str) :=
  if qs = [] then []
  else
    (splitOnChar '&' qs).flatMap fun piece =>
      if piece = [] then []
      else
        let nv :=
          match splitFirstAt '=' piece with
          | some p => p
          | none => (piece, [])
        [(pyUnquote (plusToSpace nv.1), pyUnquote (plusToSpace nv.2))]

/-- The characters `urllib.parse.quote` never encodes (`_ALWAYS_SAFE`). -/
def alwaysSafeChar (c : Char) : Bool :=
  ('A' ≤ c ∧ c ≤ 'Z') || ('a' ≤ c ∧ c ≤ 'z') || ('0' ≤ c ∧ c ≤ '9')
    || c = '_' || c = '.' || c = '-' || c = '~'

/-- An uppercase hexadecimal digit. -/
def hexUpper (n : Nat) : Char := if n < 10 then Char.ofNat (48 + n) else Char.ofNat (55 + n)

/-- Percent-encode a byte sequence, keeping always-safe bytes and the
extra `safe` characters. -/
def pyQuoteBytes (safe : List Char) (bs : List Nat) : Str :=
  bs.flatMap fun b =>
    if b ≤ 0x7f && (alwaysSafeChar (Char.ofNat b) || safe.contains (Char.ofNat b)) then
      [Char.ofNat b]
    else ['%', hexUpper (b / 16), hexUpper (b % 16)]

/-- Embeds `urllib.parse.quote(s, safe)` (UTF-8 encoding). -/
def pyQuote (safe : List Char) (s : Str) : Str := pyQuoteBytes safe (utf8Encode s)

/-- Embeds `urllib.parse.quote_plus(s, safe="")`. -/
def pyQuotePlus (s : Str) : Str :=
  if s.contains ' ' then (pyQuote [' '] s).map fun c => if c = ' ' then '+' else c
  else pyQuote [] s

/-- Code-point lexicographic strict comparison of strings, as Python
string `<`. -/
def strLtB : Str → Str → Bool
  | _, [] => false
  | [], _ :: _ => true
  | a :: as, b :: bs => a < b || (a = b && strLtB as bs)

/-- Python tuple `<=` on `(name, value)` pairs of strings. -/
def pairLeB (x y : Str × Str) : Bool :=
  strLtB x.1 y.1 || (x.1 = y.1 && !strLtB y.2 x.2)

/-- The propositional form of `pairLeB`, used as the sorting relation. -/
def pairLe (x y : Str × Str) : Prop := pairLeB x y = true

instance : DecidableRel pairLe := fun x y => by unfold pairLe; infer_instance

/-- Embeds `sorted(...)` on the pair list produced by `parse_qsl` (the
lexicographic pair order is antisymmetric, so any sorting algorithm
produces Python's output). -/
def sortPairs (l : List (Str × Str)) : List (Str × Str) := List.insertionSort pairLe l

/-- Embeds `urllib.parse.urlencode(pairs)` with its default
`quote_via=quote_plus`. -/
def urlencodePairs (pairs : List (Str × Str)) : Str :=
  List.intercalate ['&'] (pairs.map fun kv => pyQuotePlus kv.1 ++ '=' :: pyQuotePlus kv.2)

/-- Embeds `urllib.parse.urlunsplit`. -/
def pyUrlunsplit (scheme netloc url query fragment : Str) : Str :=
  let u1 :=
    if netloc ≠ [] ∨ (url ≠ [] ∧ url.take 2 = ['/', '/']) then
      '/' :: '/' :: netloc ++ (if url ≠ [] ∧ url.take 1 ≠ ['/'] then '/' :: url else url)
    else url
  let u2 := if scheme ≠ [] then scheme ++ ':' :: u1 else u1
  let u3 := if query ≠ [] then u2 ++ '?' :: query else u2
  if fragment ≠ [] then u3 ++ '#' :: fragment else u3

/-- Embeds `urllib.parse.urlunparse`. -/
def pyUrlunparse (scheme netloc path params query fragment : Str) : Str :=
  pyUrlunsplit scheme netloc (if params ≠ [] then path ++ ';' :: params else path) query fragment

/-- Embeds `canonicalize_url` from `utils/helpers.py`: lower-case scheme
and host, sort the query parameters, strip the fragment; on a parse
failure fall back to the trimmed raw string; falsy input gives `""`. -/
def canonicalize_url (u : Option Str) : Str :=
  let s := u.getD []
  if s = [] then []
  else
    match pyUrlparse s with
    | some p =>
      pyUrlunparse (asciiLower p.scheme) (asciiLower p.netloc) p.path p.params
        (urlencodePairs (sortPairs (parse_qsl p.query))) []
    | none => pyStrip s

/-! ### Row fingerprint -/

/-- The projection of a pipeline row `dict` onto the five fields that
`row_hash` reads; `none` models an absent key or `None` value. -/
structure RowRec where
  source_portal : Option Str
  source_id : Option Str
  title : Option Str
  buyer : Option Str
  link : Option Str

/-- Embeds `row_hash` from `utils/helpers.py`: SHA-256 hex digest of the
`|`-joined normalized identity fields. -/
def row_hash (r : RowRec) : Str :=
  sha256hexdigest (utf8Encode (List.intercalate ['|']
    [normalize_ws r.source_portal, normalize_ws r.source_id, normalize_ws r.title,
      normalize_ws r.buyer, canonicalize_url r.link]))

/-- Sanity test: canonicalisation lower-cases scheme and host, sorts the
query by key and drops the fragment. -/
theorem canonicalize_url_test :
    canonicalize_url (some (String.data "HTTP://E.com/a?b=2&a=1#frag")) =
      String.data "http://e.com/a?a=1&b=2" := by
  decide

/-! ### The pair order is a linear order, so sorting is permutation-invariant -/

theorem strLtB_nil_cons (b : Char) (bs : Str) : strLtB [] (b :: bs) = true := rfl

theorem strLtB_irrefl : ∀ a : Str, strLtB a a = false
  | [] => rfl
  | a :: as => by simp [strLtB, strLtB_irrefl as]

theorem strLtB_eq_of_not_lt : ∀ a b : Str, strLtB a b = false → strLtB b a = false → a = b
  | [], [], _, _ => rfl
  | [], _ :: _, h1, _ => by simp [strLtB] at h1
  | _ :: _, [], _, h2 => by simp [strLtB] at h2
  | a :: as, b :: bs, h1, h2 => by
    simp only [strLtB, Bool.or_eq_false_iff, Bool.and_eq_false_iff, decide_eq_false_iff_not] at h1 h2
    have hab : a = b := le_antisymm (not_lt.mp h2.1) (not_lt.mp h1.1)
    subst hab
    rcases h1.2 with h | h
    · exact absurd rfl (by exact_mod_cast h)
    · rcases h2.2 with h2' | h2'
      · exact absurd rfl (by exact_mod_cast h2')
      · exact congrArg (a :: ·) (strLtB_eq_of_not_lt as bs h h2')

theorem strLtB_asymm : ∀ a b : Str, strLtB a b = true → strLtB b a = false
  | [], [], h => by simp [strLtB] at h
  | [], _ :: _, _ => rfl
  | _ :: _, [], h => by simp [strLtB] at h
  | a :: as, b :: bs, h => by
    simp only [strLtB, Bool.or_eq_true, Bool.and_eq_true, decide_eq_true_eq] at h
    simp only [strLtB, Bool.or_eq_false_iff, Bool.and_eq_false_iff, decide_eq_false_iff_not]
    rcases h with h | ⟨hab, hr⟩
    · exact ⟨not_lt.mpr (le_of_lt h), Or.inl fun e => absurd (e ▸ h) (lt_irrefl b)⟩
    · subst hab
      exact ⟨lt_irrefl a, Or.inr (strLtB_asymm as bs hr)⟩

theorem strLtB_trans : ∀ a b c : Str, strLtB a b = true → strLtB b c = true → strLtB a c = true
  | _, [], _, h1, _ => by simp [strLtB] at h1
  | _, _, [], _, h2 => by simp [strLtB] at h2
  | [], _ :: _, _ :: _, _, _ => rfl
  | a :: as, b :: bs, c :: cs, h1, h2 => by
    simp only [strLtB, Bool.or_eq_true, Bool.and_eq_true, decide_eq_true_eq] at h1 h2 ⊢
    rcases h1 with h1 | ⟨hab, hr1⟩
    · rcases h2 with h2 | ⟨hbc, hr2⟩
      · exact Or.inl (lt_trans h1 h2)
      · exact Or.inl (hbc ▸ h1)
    · subst hab
      rcases h2 with h2 | ⟨hbc, hr2⟩
      · exact Or.inl h2
      · exact Or.inr ⟨hbc, strLtB_trans as bs cs hr1 hr2⟩

instance : IsTotal (Str × Str) pairLe := by
  constructor
  intro x y
  simp only [pairLe, pairLeB, Bool.or_eq_true, Bool.and_eq_true, decide_eq_true_eq,
    Bool.not_eq_true']
  by_cases h1 : strLtB x.1 y.1 = true
  · exact Or.inl (Or.inl h1)
  · by_cases h2 : strLtB y.1 x.1 = true
    · exact Or.inr (Or.inl h2)
    · have h1f : strLtB x.1 y.1 = false := by simpa using h1
      have h2f : strLtB y.1 x.1 = false := by simpa using h2
      have he : x.1 = y.1 := strLtB_eq_of_not_lt _ _ h1f h2f
      by_cases h3 : strLtB y.2 x.2 = true
      · exact Or.inr (Or.inr ⟨he.symm, strLtB_asymm _ _ h3⟩)
      · exact Or.inl (Or.inr ⟨he, by simpa using h3⟩)

instance : IsTrans (Str × Str) pairLe := by
  constructor
  intro x y z hxy hyz
  simp only [pairLe, pairLeB, Bool.or_eq_true, Bool.and_eq_true, decide_eq_true_eq,
    Bool.not_eq_true'] at hxy hyz ⊢
  rcases hxy with h1 | ⟨e1, v1⟩
  · rcases hyz with h2 | ⟨e2, v2⟩
    · exact Or.inl (strLtB_trans _ _ _ h1 h2)
    · exact Or.inl (e2 ▸ h1)
  · rcases hyz with h2 | ⟨e2, v2⟩
    · exact Or.inl (e1 ▸ h2)
    · refine Or.inr ⟨e1.trans e2, ?_⟩
      by_contra hzx
      rw [Bool.not_eq_false] at hzx
      by_cases hy : strLtB y.2 z.2 = true
      · exact absurd (strLtB_trans _ _ _ hy hzx) (by simp [v1])
      · have hyf : strLtB y.2 z.2 = false := by simpa using hy
        have hzy : z.2 = y.2 := strLtB_eq_of_not_lt _ _ v2 hyf
        exact absurd (hzy ▸ hzx) (by simp [v1])

instance : IsAntisymm (Str × Str) pairLe := by
  constructor
  intro x y hxy hyx
  simp only [pairLe, pairLeB, Bool.or_eq_true, Bool.and_eq_true, decide_eq_true_eq,
    Bool.not_eq_true'] at hxy hyx
  rcases hxy with h1 | ⟨e1, v1⟩
  · rcases hyx with h2 | ⟨e2, v2⟩
    · exact absurd h2 (by simp [strLtB_asymm _ _ h1])
    · exact absurd (e2 ▸ h1) (by simp [strLtB_irrefl])
  · rcases hyx with h2 | ⟨e2, v2⟩
    · exact absurd (e1 ▸ h2) (by simp [strLtB_irrefl])
    · exact Prod.ext e1 (strLtB_eq_of_not_lt _ _ v2 v1)

/-- Sorting with the antisymmetric pair order is invariant under
permutation of the input: the model of Python `sorted`. -/
theorem sortPairs_perm_eq {l1 l2 : List (Str × Str)} (h : l1.Perm l2) :
    sortPairs l1 = sortPairs l2 := by
  refine List.eq_of_perm_of_sorted ?_ (List.sorted_insertionSort pairLe l1)
    (List.sorted_insertionSort pairLe l2)
  exact ((List.perm_insertionSort pairLe l1).trans h).trans
    (List.perm_insertionSort pairLe l2).symm

/-! ### Whitespace normalisation is determined by the word list -/

theorem collapseWsAux_space_free : ∀ (w x : Str), (∀ c ∈ w, pyIsSpace c = false) →
    collapseWsAux false (w ++ x) = w ++ collapseWsAux false x
  | [], _, _ => rfl
  | c :: w, x, h => by
    have hc : pyIsSpace c = false := h c (List.mem_cons_self c w)
    simp only [List.cons_append, collapseWsAux, hc, Bool.false_eq_true, if_false,
      List.append_eq, collapseWsAux_space_free w x fun d hd => h d (List.mem_cons_of_mem c hd)]

theorem collapseWsAux_space_run : ∀ (sp x : Str), (∀ c ∈ sp, pyIsSpace c = true) →
    collapseWsAux true (sp ++ x) = collapseWsAux true x
  | [], _, _ => rfl
  | c :: sp, x, h => by
    have hc : pyIsSpace c = true := h c (List.mem_cons_self c sp)
    simp only [List.cons_append, collapseWsAux, hc, if_true, List.nil_append,
      List.append_eq, collapseWsAux_space_run sp x fun d hd => h d (List.mem_cons_of_mem c hd)]

theorem collapseWsAux_state_irrel : ∀ (x : Str) (b : Bool),
    (∀ c t, x = c :: t → pyIsSpace c = false) → collapseWsAux b x = collapseWsAux false x
  | [], _, _ => rfl
  | c :: t, b, h => by simp [collapseWsAux, h c t rfl]

theorem wsWordsAux_space_free : ∀ (w cur x : Str), (∀ c ∈ w, pyIsSpace c = false) →
    wsWordsAux cur (w ++ x) = wsWordsAux (w.reverse ++ cur) x
  | [], cur, x, _ => by simp
  | c :: w, cur, x, h => by
    have hc : pyIsSpace c = false := h c (List.mem_cons_self c w)
    simp only [List.cons_append, wsWordsAux, hc, Bool.false_eq_true, if_false, List.append_eq]
    rw [wsWordsAux_space_free w (c :: cur) x fun d hd => h d (List.mem_cons_of_mem c hd)]
    simp [List.reverse_cons, List.append_assoc]

theorem wsWordsAux_all_space : ∀ (sp cur : Str), (∀ c ∈ sp, pyIsSpace c = true) →
    wsWordsAux cur sp = if cur = [] then [] else [cur.reverse]
  | [], _, _ => rfl
  | c :: sp, cur, h => by
    have hc : pyIsSpace c = true := h c (List.mem_cons_self c sp)
    have ih := wsWordsAux_all_space sp [] fun d hd => h d (List.mem_cons_of_mem c hd)
    simp [wsWordsAux, hc, ih]

theorem wsWordsAux_space_cons (cur : Str) (d : Char) (r : Str) (hd : pyIsSpace d = true) :
    wsWordsAux cur (d :: r) = (if cur = [] then [] else [cur.reverse]) ++ wsWordsAux [] r := by
  simp [wsWordsAux, hd]

theorem wsWords_dropWhile (s : Str) :
    wsWordsAux [] (s.dropWhile pyIsSpace) = wsWordsAux [] s := by
  induction s with
  | nil => rfl
  | cons c t ih =>
    by_cases hc : pyIsSpace c = true
    · rw [List.dropWhile_cons, if_pos hc, ih, wsWordsAux_space_cons [] c t hc]
      simp
    · rw [List.dropWhile_cons, if_neg hc]

theorem wsWordsAux_ne_nil : ∀ (x cur : Str), cur ≠ [] → wsWordsAux cur x ≠ []
  | [], cur, h => by simp [wsWordsAux, h]
  | c :: t, cur, h => by
    by_cases hc : pyIsSpace c = true
    · simp [wsWordsAux, hc, h]
    · simpa [wsWordsAux, hc] using wsWordsAux_ne_nil t (c :: cur) (by simp)

theorem dropWhile_of_head_neg {p : Char → Bool} : ∀ (l : Str),
    (∀ c t, l = c :: t → p c = false) → l.dropWhile p = l
  | [], _ => rfl
  | c :: t, h => by simp [List.dropWhile_cons, h c t rfl]

/-- The head of a `dropWhile` residue fails the predicate. -/
theorem dropWhile_head_neg {p : Char → Bool} : ∀ (l : Str) (x : Char) (y : Str),
    l.dropWhile p = x :: y → p x = false
  | [], x, y, h => by simp at h
  | c :: t, x, y, h => by
    by_cases hc : p c = true
    · rw [List.dropWhile_cons, if_pos hc] at h
      exact dropWhile_head_neg t x y h
    · rw [List.dropWhile_cons, if_neg hc] at h
      have : c = x := (List.cons.injEq c t x y ▸ h).1
      simpa [← this] using hc

theorem rdropWhile_append_all (a r : Str) (h : ∀ c ∈ r, pyIsSpace c = true) :
    (a ++ r).rdropWhile pyIsSpace = a.rdropWhile pyIsSpace := by
  unfold List.rdropWhile
  rw [List.reverse_append, List.dropWhile_append_of_pos fun c hc => h c (List.mem_reverse.mp hc)]

theorem rdropWhile_append_nonspace (a r : Str) (h : ∃ c ∈ r, pyIsSpace c = false) :
    (a ++ r).rdropWhile pyIsSpace = a ++ r.rdropWhile pyIsSpace := by
  unfold List.rdropWhile
  rw [List.reverse_append, List.dropWhile_append]
  have hne : r.reverse.dropWhile pyIsSpace ≠ [] := by
    rw [Ne, List.dropWhile_eq_nil_iff]
    intro hall
    obtain ⟨c, hc, hcf⟩ := h
    have := hall c (List.mem_reverse.mpr hc)
    simp [hcf] at this
  rw [if_neg (by simpa [List.isEmpty_iff] using hne)]
  rw [List.reverse_append, List.reverse_reverse]

theorem rdropWhile_space_free (w : Str) (h : ∀ c ∈ w, pyIsSpace c = false) :
    w.rdropWhile pyIsSpace = w := by
  unfold List.rdropWhile
  rw [dropWhile_of_head_neg _ (fun c t hct => by
    have : c ∈ w.reverse := hct ▸ List.mem_cons_self c t
    exact h c (List.mem_reverse.mp this)), List.reverse_reverse]

theorem intercalate_cons_of_ne_nil (w : Str) (ws : List Str) (h : ws ≠ []) :
    List.intercalate [' '] (w :: ws) = w ++ ' ' :: List.intercalate [' '] ws := by
  cases ws with
  | nil => exact absurd rfl h
  | cons w2 rest => simp [List.intercalate]

/-- Collapsing whitespace after stripping is determined by the word list:
the central lemma behind whitespace-run invariance of the fingerprint. -/
theorem collapse_rstrip_eq_join : ∀ (n : Nat) (t : Str), t.length ≤ n →
    (∀ c u, t = c :: u → pyIsSpace c = false) →
    collapseWsAux false (t.rdropWhile pyIsSpace) = List.intercalate [' '] (wsWordsAux [] t) := by
  intro n
  induction n with
  | zero =>
    intro t ht _
    have : t = [] := List.eq_nil_of_length_eq_zero (Nat.le_zero.mp ht)
    subst this
    rfl
  | succ n ih =>
    intro t hlen hhead
    cases ht : t with
    | nil => rfl
    | cons c u =>
      subst ht
      have hc : pyIsSpace c = false := hhead c u rfl
      set q : Char → Bool := fun d => !pyIsSpace d with hq
      set w := (c :: u).takeWhile q with hwdef
      set r := (c :: u).dropWhile q with hrdef
      have hwr : w ++ r = c :: u := List.takeWhile_append_dropWhile q (c :: u)
      have hw_all : ∀ d ∈ w, pyIsSpace d = false := by
        intro d hd
        have := List.mem_takeWhile_imp hd
        simpa [hq] using this
      have hw_ne : w ≠ [] := by
        have : q c = true := by simp [hq, hc]
        simp [hwdef, List.takeWhile_cons, this]
      have hrhs : wsWordsAux [] (c :: u) = wsWordsAux w.reverse r := by
        rw [← hwr, wsWordsAux_space_free w [] r hw_all, List.append_nil]
      by_cases hr : ∀ d ∈ r, pyIsSpace d = true
      · -- the tail is all whitespace: one word
        have hL : (c :: u).rdropWhile pyIsSpace = w := by
          rw [← hwr, rdropWhile_append_all w r hr, rdropWhile_space_free w hw_all]
        have hR : wsWordsAux [] (c :: u) = [w] := by
          rw [hrhs, wsWordsAux_all_space r w.reverse hr,
            if_neg (fun e => hw_ne (by simpa using congrArg List.reverse e))]
          simp
        rw [hL, hR]
        have : collapseWsAux false (w ++ []) = w ++ collapseWsAux false [] :=
          collapseWsAux_space_free w [] hw_all
        simp only [List.append_nil] at this
        simp [this, collapseWsAux, List.intercalate]
      · -- the tail contains another word
        push_neg at hr
        obtain ⟨e0, he0mem, he0⟩ := hr
        have he0f : pyIsSpace e0 = false := by simpa using he0
        have hex : ∃ d ∈ r, pyIsSpace d = false := ⟨e0, he0mem, he0f⟩
        -- r begins with a space character
        obtain ⟨d, r1, hrcons⟩ : ∃ d r1, r = d :: r1 := by
          cases hrc : r with
          | nil => exact absurd (hrc ▸ he0mem) (List.not_mem_nil e0)
          | cons d r1 => exact ⟨d, r1, rfl⟩
        have hd_sp : pyIsSpace d = true := by
          have hqd : q d = false := dropWhile_head_neg (c :: u) d r1 (hrdef ▸ hrcons)
          simpa [hq] using hqd
        set sp := r.takeWhile pyIsSpace with hspdef
        set r2 := r.dropWhile pyIsSpace with hr2def
        have hsp_all : ∀ x ∈ sp, pyIsSpace x = true := fun x hx => List.mem_takeWhile_imp hx
        have hspr : sp ++ r2 = r := List.takeWhile_append_dropWhile pyIsSpace r
        have hr2_ne : r2 ≠ [] := by
          rw [hr2def, Ne, List.dropWhile_eq_nil_iff]
          intro hall
          exact absurd (hall e0 he0mem) (by simp [he0f])
        have hr2_head : ∀ x y, r2 = x :: y → pyIsSpace x = false := by
          intro x y hxy
          exact dropWhile_head_neg r x y (hr2def ▸ hxy)
        have hsp_ne : sp ≠ [] := by
          simp [hspdef, hrcons, List.takeWhile_cons, hd_sp]
        have hex2 : ∃ x ∈ r2, pyIsSpace x = false := by
          cases hr2c : r2 with
          | nil => exact absurd hr2c hr2_ne
          | cons x y => exact ⟨x, by simp, hr2_head x y hr2c⟩
        -- left-hand side
        have hL1 : (c :: u).rdropWhile pyIsSpace = w ++ (sp ++ r2.rdropWhile pyIsSpace) := by
          rw [← hwr, rdropWhile_append_nonspace w r hex, ← hspr,
            rdropWhile_append_nonspace sp r2 hex2]
        have hy_head : ∀ x y, r2.rdropWhile pyIsSpace = x :: y → pyIsSpace x = false := by
          intro x y hxy
          obtain ⟨tl, htl⟩ := List.rdropWhile_prefix pyIsSpace (l := r2)
          rw [hxy] at htl
          cases hr2c : r2 with
          | nil => exact absurd hr2c hr2_ne
          | cons a b =>
            rw [hr2c] at htl
            have hxa : x = a := by
              have := congrArg (fun l => l.headD 'Q') htl
              simpa using this
            exact hxa ▸ hr2_head a b hr2c
        obtain ⟨d2, sp2, hspcons⟩ : ∃ d2 sp2, sp = d2 :: sp2 := by
          cases hspc : sp with
          | nil => exact absurd hspc hsp_ne
          | cons d2 sp2 => exact ⟨d2, sp2, rfl⟩
        have hL2 : collapseWsAux false ((c :: u).rdropWhile pyIsSpace) =
            w ++ ' ' :: collapseWsAux false (r2.rdropWhile pyIsSpace) := by
          rw [hL1, collapseWsAux_space_free w _ hw_all, hspcons]
          have hd2 : pyIsSpace d2 = true := hsp_all d2 (hspcons ▸ List.mem_cons_self d2 sp2)
          have hsp2_all : ∀ x ∈ sp2, pyIsSpace x = true := fun x hx =>
            hsp_all x (hspcons ▸ List.mem_cons_of_mem d2 hx)
          have h1 : collapseWsAux false ((d2 :: sp2) ++ r2.rdropWhile pyIsSpace) =
              ' ' :: collapseWsAux true (sp2 ++ r2.rdropWhile pyIsSpace) := by
            simp [collapseWsAux, hd2]
          rw [h1, collapseWsAux_space_run sp2 _ hsp2_all,
            collapseWsAux_state_irrel _ true hy_head]
        -- right-hand side
        have hR1 : wsWordsAux [] (c :: u) = w :: wsWordsAux [] r2 := by
          rw [hrhs, hrcons, wsWordsAux_space_cons _ d r1 hd_sp,
            if_neg (fun e => hw_ne (by simpa using congrArg List.reverse e))]
          have : r2 = r1.dropWhile pyIsSpace := by
            rw [hr2def, hrcons, List.dropWhile_cons, if_pos hd_sp]
          rw [this, wsWords_dropWhile r1]
          simp
        have hwords_ne : wsWordsAux [] r2 ≠ [] := by
          cases hr2c : r2 with
          | nil => exact absurd hr2c hr2_ne
          | cons x y =>
            have hx : pyIsSpace x = false := hr2_head x y hr2c
            simpa [wsWordsAux, hx] using wsWordsAux_ne_nil y [x] (by simp)
        -- lengths for the induction hypothesis
        have hlen2 : r2.length ≤ n := by
          have h1 : w.length + r.length = (c :: u).length := by
            rw [← hwr]; simp
          have h2 : sp.length + r2.length = r.length := by
            rw [← hspr]; simp
          have hw1 : 1 ≤ w.length := by
            cases hwc : w with
            | nil => exact absurd hwc hw_ne
            | cons _ _ => simp
          have hs1 : 1 ≤ sp.length := by
            cases hspc : sp with
            | nil => exact absurd hspc hsp_ne
            | cons _ _ => simp
          have := hlen
          simp only [List.length_cons] at this
          omega
        have hIH := ih r2 hlen2 hr2_head
        rw [hL2, hR1, intercalate_cons_of_ne_nil w _ hwords_ne, hIH]

/-- Trimming then collapsing whitespace equals joining the word list with
single spaces. -/
theorem collapse_strip_eq_join (s : Str) :
    collapseWs (pyStrip s) = List.intercalate [' '] (wsWords s) := by
  unfold collapseWs pyStrip wsWords
  rw [← wsWords_dropWhile s]
  refine collapse_rstrip_eq_join (s.dropWhile pyIsSpace).length _ le_rfl ?_
  intro c u hcu
  exact dropWhile_head_neg s c u hcu

/-- Strings with the same word list normalise identically. -/
theorem normalize_ws_congr {a b : Option Str}
    (h : wsWords (a.getD []) = wsWords (b.getD [])) :
    normalize_ws a = normalize_ws b := by
  unfold normalize_ws
  rw [collapse_strip_eq_join, collapse_strip_eq_join, h]

/-! ### Claim C1: fingerprint invariance -/

/-- Two optional text fields are identical up to whitespace runs
(leading/trailing whitespace and the width of interior whitespace runs may
differ; `None` counts as the empty string). -/
def WsEquiv (a b : Option Str) : Prop := wsWords (a.getD []) = wsWords (b.getD [])

instance (a b : Option Str) : Decidable (WsEquiv a b) := by unfold WsEquiv; infer_instance

/-- The parsed components of two links agree except that the query
parameters are permuted and the fragments are arbitrary. -/
def linkPartsOk (o1 o2 : Option UrlParts) : Prop :=
  match o1, o2 with
  | some p, some pq =>
    p.scheme = pq.scheme ∧ p.netloc = pq.netloc ∧ p.path = pq.path ∧
      p.params = pq.params ∧ (parse_qsl p.query).Perm (parse_qsl pq.query)
  | _, _ => False

instance : (o1 o2 : Option UrlParts) → Decidable (linkPartsOk o1 o2)
  | none, none => isFalse fun h => h
  | none, some _ => isFalse fun h => h
  | some _, none => isFalse fun h => h
  | some _, some _ => by unfold linkPartsOk; infer_instance

/-- Two optional link fields differ only in URL query-parameter order or
URL fragment: both are falsy, or both parse and the parsed components
agree up to query-parameter permutation and fragment. -/
def LinkQEquiv (a b : Option Str) : Prop :=
  (a.getD [] = [] ∧ b.getD [] = []) ∨
    (a.getD [] ≠ [] ∧ b.getD [] ≠ [] ∧
      linkPartsOk (pyUrlparse (a.getD [])) (pyUrlparse (b.getD [])))

instance (a b : Option Str) : Decidable (LinkQEquiv a b) := by
  unfold LinkQEquiv; infer_instance

/-- Canonicalisation is invariant under query-parameter order and
fragment. -/
theorem canonicalize_url_congr {a b : Option Str} (h : LinkQEquiv a b) :
    canonicalize_url a = canonicalize_url b := by
  rcases h with ⟨ha, hb⟩ | ⟨ha, hb, hok⟩
  · simp [canonicalize_url, ha, hb]
  · unfold canonicalize_url
    rw [if_neg ha, if_neg hb]
    cases hpa : pyUrlparse (a.getD []) with
    | none => rw [hpa] at hok; cases hpb : pyUrlparse (b.getD []) <;> rw [hpb] at hok <;> exact hok.elim
    | some p =>
      cases hpb : pyUrlparse (b.getD []) with
      | none => rw [hpa, hpb] at hok; exact hok.elim
      | some pq =>
        rw [hpa, hpb] at hok
        obtain ⟨hs, hn, hp, hpr, hq⟩ := hok
        simp only
        rw [hs, hn, hp, hpr, sortPairs_perm_eq hq]

/-- Concrete record with link `http://e.com/a`. -/
def c1slashA : RowRec :=
  ⟨some (String.data "p"), none, some (String.data "t"), none,
    some (String.data "http://e.com/a")⟩

/-- The same record with only a trailing slash added to the link. -/
def c1slashB : RowRec :=
  ⟨some (String.data "p"), none, some (String.data "t"), none,
    some (String.data "http://e.com/a/")⟩

/-- Claim C1, counterexample: two records with identical
`source_portal`/`source_id`/`title`/`buyer` whose links differ only by a
trailing slash hash differently — `canonicalize_url` keeps the path
verbatim, so the claimed trailing-slash invariance fails. -/
theorem C1_trailing_slash_counterexample :
    c1slashA.source_portal = c1slashB.source_portal ∧
    c1slashA.source_id = c1slashB.source_id ∧
    c1slashA.title = c1slashB.title ∧
    c1slashA.buyer = c1slashB.buyer ∧
    c1slashA.link.getD [] ++ ['/'] = c1slashB.link.getD [] ∧
    row_hash c1slashA ≠ row_hash c1slashB := by
  exact ⟨rfl, rfl, rfl, rfl, by decide, by decide⟩

/-- Claim C1 (amended: trailing-slash invariance removed): records with
identical `(source_portal, source_id, title, buyer)` up to whitespace runs
and links differing only in query-parameter order or URL fragment receive
the same `row_hash`. -/
theorem C1_row_hash_invariant (r1 r2 : RowRec)
    (hp : WsEquiv r1.source_portal r2.source_portal)
    (hi : WsEquiv r1.source_id r2.source_id)
    (ht : WsEquiv r1.title r2.title)
    (hb : WsEquiv r1.buyer r2.buyer)
    (hl : LinkQEquiv r1.link r2.link) :
    row_hash r1 = row_hash r2 := by
  unfold row_hash
  rw [normalize_ws_congr hp, normalize_ws_congr hi, normalize_ws_congr ht,
    normalize_ws_congr hb, canonicalize_url_congr hl]

/-- Concrete record used to instantiate the invariance theorem. -/
def c1rowA : RowRec :=
  ⟨some (String.data "  Dept of   Finance"), none,
    some (String.data "Cyber  Upgrade"), some (String.data "ACT Health "),
    some (String.data "http://E.com/a?b=2&a=1#frag")⟩

/-- The same record with whitespace runs, query order and fragment
varied. -/
def c1rowB : RowRec :=
  ⟨some (String.data "Dept of Finance"), some (String.data ""),
    some (String.data "Cyber Upgrade"), some (String.data " ACT  Health"),
    some (String.data "http://E.com/a?a=1&b=2")⟩

/-- Witness for claim C1: the invariance theorem applied at two concrete
records that differ in whitespace runs, query-parameter order and
fragment. -/
theorem C1_row_hash_invariant_witness :
    WsEquiv c1rowA.source_portal c1rowB.source_portal ∧
    LinkQEquiv c1rowA.link c1rowB.link ∧
    row_hash c1rowA = row_hash c1rowB := by
  refine ⟨by decide, by decide, ?_⟩
  exact C1_row_hash_invariant c1rowA c1rowB (by decide) (by decide) (by decide)
    (by decide) (by decide)

/-! ### Claim C4: cosine similarity

Embeds `cosine_similarity` from `utils/helpers.py`; machine floats are
idealised as real numbers, which forces the definitions to be
`noncomputable` (real square roots), while the guard structure is kept
verbatim. -/

/-- Sum of squares of a vector (`na`/`nb` in the source loop). -/
def sumSq (a : List ℝ) : ℝ := (a.map fun x => x * x).sum

/-- Dot product over the zipped pair list (`dot` in the source loop). -/
def dotL (a b : List ℝ) : ℝ := ((a.zip b).map fun p => p.1 * p.2).sum

/-- Embeds `cosine_similarity`: a single fold accumulates `dot`, `na`,
`nb` over the zipped vectors, with the source's two guard branches. -/
noncomputable def cosine_similarity (a b : List ℝ) : ℝ :=
  if a = [] ∨ b = [] ∨ a.length ≠ b.length then 0
  else
    let acc := (a.zip b).foldl
      (fun acc p => (acc.1 + p.1 * p.2, acc.2.1 + p.1 * p.1, acc.2.2 + p.2 * p.2))
      ((0 : ℝ), (0 : ℝ), (0 : ℝ))
    if acc.2.1 ≤ 0 ∨ acc.2.2 ≤ 0 then 0
    else acc.1 / (Real.sqrt acc.2.1 * Real.sqrt acc.2.2)

theorem cosine_foldl_eq : ∀ (l : List (ℝ × ℝ)) (d n m : ℝ),
    l.foldl (fun acc p => (acc.1 + p.1 * p.2, acc.2.1 + p.1 * p.1, acc.2.2 + p.2 * p.2))
        (d, n, m) =
      (d + (l.map fun p => p.1 * p.2).sum, n + (l.map fun p => p.1 * p.1).sum,
        m + (l.map fun p => p.2 * p.2).sum)
  | [], d, n, m => by simp
  | p :: l, d, n, m => by
    rw [List.foldl_cons, cosine_foldl_eq l]
    simp only [List.map_cons, List.sum_cons]
    refine Prod.ext (by ring) (Prod.ext (by ring) (by ring))

theorem zip_fst_sq_sum : ∀ (a b : List ℝ), a.length = b.length →
    ((a.zip b).map fun p => p.1 * p.1).sum = sumSq a
  | [], [], _ => rfl
  | [], _ :: _, h => by simp at h
  | _ :: _, [], h => by simp at h
  | x :: a, y :: b, h => by
    simp only [List.length_cons, Nat.succ.injEq] at h
    simp [sumSq, List.zip_cons_cons, zip_fst_sq_sum a b h]

theorem zip_snd_sq_sum : ∀ (a b : List ℝ), a.length = b.length →
    ((a.zip b).map fun p => p.2 * p.2).sum = sumSq b
  | [], [], _ => rfl
  | [], _ :: _, h => by simp at h
  | _ :: _, [], h => by simp at h
  | x :: a, y :: b, h => by
    simp only [List.length_cons, Nat.succ.injEq] at h
    simp [sumSq, List.zip_cons_cons, zip_snd_sq_sum a b h]

theorem sumSq_nonneg (a : List ℝ) : 0 ≤ sumSq a := by
  refine List.sum_nonneg ?_
  intro x hx
  obtain ⟨y, _, rfl⟩ := List.mem_map.mp hx
  exact mul_self_nonneg y

theorem list_sum_eq_range (l : List ℝ) :
    l.sum = ∑ i ∈ Finset.range l.length, l.getD i 0 := by
  induction l with
  | nil => simp
  | cons x xs ih =>
    rw [List.sum_cons, List.length_cons, Finset.sum_range_succ', ih]
    simp [add_comm]

theorem dotL_eq_range (a b : List ℝ) (h : a.length = b.length) :
    dotL a b = ∑ i ∈ Finset.range a.length, a.getD i 0 * b.getD i 0 := by
  rw [dotL, list_sum_eq_range]
  have hlen : ((a.zip b).map fun p => p.1 * p.2).length = a.length := by
    simp [List.length_zip, h]
  rw [hlen]
  refine Finset.sum_congr rfl ?_
  intro i hi
  have hia : i < a.length := Finset.mem_range.mp hi
  have hib : i < b.length := h ▸ hia
  have hiz : i < (a.zip b).length := by simp [List.length_zip, h]; omega
  have him : i < ((a.zip b).map fun p => p.1 * p.2).length := by simpa using hiz
  rw [List.getD_eq_getElem _ _ him, List.getD_eq_getElem _ _ hia, List.getD_eq_getElem _ _ hib]
  simp

theorem sumSq_eq_range (a : List ℝ) :
    sumSq a = ∑ i ∈ Finset.range a.length, a.getD i 0 * a.getD i 0 := by
  rw [sumSq, list_sum_eq_range]
  have hlen : (a.map fun x => x * x).length = a.length := by simp
  rw [hlen]
  refine Finset.sum_congr rfl ?_
  intro i hi
  have hia : i < a.length := Finset.mem_range.mp hi
  have him : i < (a.map fun x => x * x).length := by simpa using hia
  rw [List.getD_eq_getElem _ _ him, List.getD_eq_getElem _ _ hia]
  simp

/-- Cauchy-Schwarz for the list dot product. -/
theorem abs_dotL_le (a b : List ℝ) (h : a.length = b.length) :
    |dotL a b| ≤ Real.sqrt (sumSq a) * Real.sqrt (sumSq b) := by
  rw [abs_le]
  constructor
  · have hcs := Real.sum_mul_le_sqrt_mul_sqrt (Finset.range a.length)
      (fun i => -(a.getD i 0)) (fun i => b.getD i 0)
    rw [neg_le]
    calc -dotL a b
        = ∑ i ∈ Finset.range a.length, -(a.getD i 0) * b.getD i 0 := by
          rw [dotL_eq_range a b h, ← Finset.sum_neg_distrib]
          exact Finset.sum_congr rfl fun i _ => by ring
      _ ≤ Real.sqrt (∑ i ∈ Finset.range a.length, (-(a.getD i 0)) ^ 2) *
            Real.sqrt (∑ i ∈ Finset.range a.length, b.getD i 0 ^ 2) := hcs
      _ = Real.sqrt (sumSq a) * Real.sqrt (sumSq b) := by
          rw [sumSq_eq_range a, sumSq_eq_range b, h]
          congr 1
          · congr 1
            exact Finset.sum_congr rfl fun i _ => by ring
          · congr 1
            exact Finset.sum_congr rfl fun i _ => by ring
  · have hcs := Real.sum_mul_le_sqrt_mul_sqrt (Finset.range a.length)
      (fun i => a.getD i 0) (fun i => b.getD i 0)
    calc dotL a b
        = ∑ i ∈ Finset.range a.length, a.getD i 0 * b.getD i 0 := dotL_eq_range a b h
      _ ≤ Real.sqrt (∑ i ∈ Finset.range a.length, a.getD i 0 ^ 2) *
            Real.sqrt (∑ i ∈ Finset.range a.length, b.getD i 0 ^ 2) := hcs
      _ = Real.sqrt (sumSq a) * Real.sqrt (sumSq b) := by
          rw [sumSq_eq_range a, sumSq_eq_range b, h]
          congr 1
          · congr 1
            exact Finset.sum_congr rfl fun i _ => by ring
          · congr 1
            exact Finset.sum_congr rfl fun i _ => by ring

/-- Claim C4: `cosine_similarity` returns exactly `0` whenever a vector is
empty, the lengths differ, or a vector has zero norm (sum of squares
zero); on non-degenerate inputs it returns
`dot / (sqrt (sumSq a) * sqrt (sumSq b))`, which lies in `[-1, 1]`.
(Floats are idealised as reals.) -/
theorem C4_cosine_similarity_total_and_bounded (a b : List ℝ) :
    ((a = [] ∨ b = [] ∨ a.length ≠ b.length ∨ sumSq a = 0 ∨ sumSq b = 0) →
      cosine_similarity a b = 0) ∧
    (a ≠ [] → b ≠ [] → a.length = b.length → sumSq a ≠ 0 → sumSq b ≠ 0 →
      cosine_similarity a b = dotL a b / (Real.sqrt (sumSq a) * Real.sqrt (sumSq b)) ∧
        -1 ≤ cosine_similarity a b ∧ cosine_similarity a b ≤ 1) := by
  constructor
  · intro hdeg
    by_cases htriv : a = [] ∨ b = [] ∨ a.length ≠ b.length
    · simp [cosine_similarity, htriv]
    · push_neg at htriv
      obtain ⟨ha, hb, hlen⟩ := htriv
      have hz : sumSq a = 0 ∨ sumSq b = 0 := by
        rcases hdeg with h | h | h | h | h
        · exact absurd h ha
        · exact absurd h hb
        · exact absurd hlen h
        · exact Or.inl h
        · exact Or.inr h
      rw [cosine_similarity, if_neg (by simp [ha, hb, hlen])]
      simp only [cosine_foldl_eq, zero_add]
      rw [zip_fst_sq_sum a b hlen, zip_snd_sq_sum a b hlen]
      rcases hz with h | h
      · rw [if_pos (Or.inl (le_of_eq h))]
      · rw [if_pos (Or.inr (le_of_eq h))]
  · intro ha hb hlen hna hnb
    have hpa : 0 < sumSq a := lt_of_le_of_ne (sumSq_nonneg a) (Ne.symm hna)
    have hpb : 0 < sumSq b := lt_of_le_of_ne (sumSq_nonneg b) (Ne.symm hnb)
    have heq : cosine_similarity a b =
        dotL a b / (Real.sqrt (sumSq a) * Real.sqrt (sumSq b)) := by
      rw [cosine_similarity, if_neg (by simp [ha, hb, hlen])]
      simp only [cosine_foldl_eq, zero_add]
      rw [zip_fst_sq_sum a b hlen, zip_snd_sq_sum a b hlen]
      rw [if_neg (by push_neg; exact ⟨hpa, hpb⟩)]
      rfl
    refine ⟨heq, ?_, ?_⟩
    · rw [heq]
      have hd : 0 < Real.sqrt (sumSq a) * Real.sqrt (sumSq b) :=
        mul_pos (Real.sqrt_pos.mpr hpa) (Real.sqrt_pos.mpr hpb)
      rw [neg_le, ← neg_div, div_le_one hd]
      have := (abs_le.mp (abs_dotL_le a b hlen)).1
      linarith
    · rw [heq, div_le_one (mul_pos (Real.sqrt_pos.mpr hpa) (Real.sqrt_pos.mpr hpb))]
      exact (abs_le.mp (abs_dotL_le a b hlen)).2

/-- Witness for claim C4: the theorem applied at `a = b = [1]`, where the
similarity evaluates to `1` and the bounds hold. -/
theorem C4_cosine_similarity_total_and_bounded_witness :
    cosine_similarity [(1 : ℝ)] [(1 : ℝ)] = 1 ∧
      -1 ≤ cosine_similarity [(1 : ℝ)] [(1 : ℝ)] ∧
      cosine_similarity [(1 : ℝ)] [(1 : ℝ)] ≤ 1 := by
  have h := (C4_cosine_similarity_total_and_bounded [(1 : ℝ)] [(1 : ℝ)]).2
    (by simp) (by simp) rfl (by norm_num [sumSq]) (by norm_num [sumSq])
  refine ⟨?_, h.2⟩
  rw [h.1]
  norm_num [dotL, sumSq, Real.sqrt_one]

/-! ### Claim C8: `Tender` construction and closing-date derivation -/

/-- Embeds the `Tender` dataclass from `scrapers/base_scraper.py`;
optional string fields are `Option Str`, `tender_value` an optional
real. -/
structure Tender where
  source_portal : Str
  title : Option Str := none
  description : Option Str := none
  link : Option Str := none
  source_id : Option Str := none
  atm_id : Option Str := none
  category : Option Str := none
  buyer : Option Str := none
  location : Option Str := none
  publish_date : Option Str := none
  closing_date : Option Str := none
  closing_ts : Option Str := none
  tender_value : Option ℝ := none
  contact_name : Option Str := none
  contact_email : Option Str := none

/-- Python truthiness of an optional string: `None` and `""` are falsy. -/
def falsyS (s : Option Str) : Bool := s.getD [] = []

/-- Embeds `Tender.__post_init__`: map `atm_id` to `source_id` when the
latter is falsy, then derive `closing_date` from the first ten characters
of `closing_ts` when `closing_date` is falsy and `closing_ts` is truthy
with length at least ten. -/
def tenderPostInit (t : Tender) : Tender :=
  let t1 := if falsyS t.source_id && !falsyS t.atm_id then { t with source_id := t.atm_id } else t
  if falsyS t1.closing_date && !falsyS t1.closing_ts then
    if 10 ≤ (t1.closing_ts.getD []).length then
      { t1 with closing_date := some ((t1.closing_ts.getD []).take 10) }
    else t1
  else t1

/-- Constructing a `Tender` (the dataclass `__init__`) runs
`__post_init__` on the field values. -/
def mkTender (t : Tender) : Tender := tenderPostInit t

theorem tenderPostInit_closing_date (t : Tender) :
    (tenderPostInit t).closing_date =
      if falsyS t.closing_date && !falsyS t.closing_ts
          && decide (10 ≤ (t.closing_ts.getD []).length) then
        some ((t.closing_ts.getD []).take 10)
      else t.closing_date := by
  simp only [tenderPostInit]
  have main : ∀ t1 : Tender, t1.closing_date = t.closing_date → t1.closing_ts = t.closing_ts →
      (if falsyS t1.closing_date && !falsyS t1.closing_ts then
        if 10 ≤ (t1.closing_ts.getD []).length then
          { t1 with closing_date := some ((t1.closing_ts.getD []).take 10) }
        else t1
      else t1).closing_date =
      (if falsyS t.closing_date && !falsyS t.closing_ts
          && decide (10 ≤ (t.closing_ts.getD []).length) then
        some ((t.closing_ts.getD []).take 10)
      else t.closing_date) := by
    intro t1 hcd hct
    rw [hcd, hct]
    by_cases h1 : (falsyS t.closing_date && !falsyS t.closing_ts) = true
    · by_cases h2 : 10 ≤ (t.closing_ts.getD []).length
      · rw [if_pos h1, if_pos h2, if_pos (by simp [h1, h2])]
      · rw [if_pos h1, if_neg h2, hcd, if_neg (by simp [h2])]
    · rw [if_neg h1, hcd, if_neg (fun hcon => h1 (Bool.and_eq_true _ _ ▸ hcon).1)]
  by_cases h0 : (falsyS t.source_id && !falsyS t.atm_id) = true
  · rw [if_pos h0]
    exact main _ rfl rfl
  · rw [if_neg h0]
    exact main t rfl rfl

/-- Claim C8 (amended: a supplied `closing_date` is left unchanged only
when it is non-empty; an empty-string `closing_date` is falsy and is
overwritten like an absent one): with `closing_date` absent or empty and a
`closing_ts` of length at least ten, construction sets `closing_date` to
the first ten characters of `closing_ts`; a supplied non-empty
`closing_date` is left unchanged. -/
theorem C8_closing_date_derivation (t : Tender) :
    ((t.closing_date = none ∨ t.closing_date = some []) →
      ∀ s, t.closing_ts = some s → 10 ≤ s.length →
        (mkTender t).closing_date = some (s.take 10)) ∧
    (∀ d, t.closing_date = some d → d ≠ [] → (mkTender t).closing_date = t.closing_date) := by
  constructor
  · intro hcd s hts hlen
    have h1 : falsyS t.closing_date = true := by
      rcases hcd with h | h <;> simp [falsyS, h]
    have hs_ne : s ≠ [] := by
      intro h
      rw [h] at hlen
      simp at hlen
    have h2 : falsyS t.closing_ts = false := by
      simp only [falsyS, hts, Option.getD_some, decide_eq_false_iff_not]
      exact hs_ne
    have hcond : (falsyS t.closing_date && !falsyS t.closing_ts
        && decide (10 ≤ (t.closing_ts.getD []).length)) = true := by
      rw [h1, h2, hts]
      simp [hlen]
    rw [mkTender, tenderPostInit_closing_date, if_pos hcond, hts]
    simp
  · intro d hd hdne
    have h1 : falsyS t.closing_date = false := by simp [falsyS, hd, hdne]
    rw [mkTender, tenderPostInit_closing_date, if_neg (by simp [h1])]

/-- Concrete record: `closing_ts` supplied, `closing_date` absent. -/
def c8ok : Tender :=
  { source_portal := String.data "p",
    closing_ts := some (String.data "2025-08-25T17:00:00Z") }

/-- Witness for claim C8: the spec's own example, with closing timestamp
`2025-08-25T17:00:00Z` the constructed record exposes closing date
`2025-08-25`. -/
theorem C8_closing_date_derivation_witness :
    (mkTender c8ok).closing_date = some (String.data "2025-08-25") := by
  have h := (C8_closing_date_derivation c8ok).1 (Or.inl rfl)
    (String.data "2025-08-25T17:00:00Z") rfl (by decide)
  exact h.trans (by decide)

/-- Concrete record whose `closing_date` is supplied as the empty
string. -/
def c8empty : Tender :=
  { source_portal := String.data "p",
    closing_date := some [],
    closing_ts := some (String.data "2025-08-25T17:00:00Z") }

/-- Claim C8, counterexample: a `Tender` constructed with `closing_date`
supplied as `""` (a supplied value, but falsy) and a long `closing_ts`
does not keep its supplied `closing_date`: `__post_init__` tests Python
truthiness, not presence, and overwrites it with the derived prefix. -/
theorem C8_supplied_empty_counterexample :
    c8empty.closing_date = some [] ∧
      (mkTender c8empty).closing_date = some (String.data "2025-08-25") ∧
      (mkTender c8empty).closing_date ≠ c8empty.closing_date := by
  exact ⟨rfl, by decide, by decide⟩

/-! ### Claim C2: retry orchestrator -/

/-- The loosely-keyed mapping shape accepted at the pipeline boundary
(`obj.get(...)` returns `None` for absent keys). -/
structure TenderDict where
  source_portal : Option Str := none
  title : Option Str := none
  link : Option Str := none
  source_id : Option Str := none
  atm_id : Option Str := none
  description : Option Str := none
  category : Option Str := none
  buyer : Option Str := none
  location : Option Str := none
  publish_date : Option Str := none
  closing_date : Option Str := none
  closing_ts : Option Str := none
  tender_value : Option ℝ := none
  contact_name : Option Str := none
  contact_email : Option Str := none

/-- The two raw item shapes `ensure_tender` accepts (other shapes raise
`TypeError` and are unrepresentable in the typed model). -/
def RawItem := Tender ⊕ TenderDict

/-- Embeds `ensure_tender` from `tenderbot.py`: a `Tender` passes through;
a dict is converted, mapping `atm_id` to `source_id` when the latter is
falsy and a falsy portal to `"unknown"`; dataclass construction runs
`__post_init__`. -/
def ensure_tender : RawItem → Tender
  | Sum.inl t => t
  | Sum.inr d =>
    mkTender
      { source_portal :=
          if d.source_portal.getD [] = [] then String.data "unknown" else d.source_portal.getD [],
        title := d.title, link := d.link,
        source_id := if falsyS d.source_id then d.atm_id else d.source_id,
        description := d.description, category := d.category, buyer := d.buyer,
        location := d.location, publish_date := d.publish_date,
        closing_date := d.closing_date, closing_ts := d.closing_ts,
        tender_value := d.tender_value, contact_name := d.contact_name,
        contact_email := d.contact_email }

/-- One fetch attempt outcome: a returned result (possibly `None`), a
raised exception, or a timeout. -/
inductive FetchOutcome where
  | ok (result : Option (List RawItem))
  | exc
  | timeout

/-- Loop worker for `_run_with_retries`: `i` is the 1-based try index,
`rem` the number of tries remaining, and the two counters record fetch
attempts made and backoff sleeps performed (sleep durations and jitter are
timing-only and not modelled). -/
def runRetriesGo (fetch : Nat → FetchOutcome) : Nat → Nat → Nat → Nat →
    List Tender × Nat × Nat
  | _, 0, fetches, sleeps => ([], fetches, sleeps)
  | i, rem + 1, fetches, sleeps =>
    match fetch i with
    | FetchOutcome.ok result => ((result.getD []).map ensure_tender, fetches + 1, sleeps)
    | _ =>
      if rem > 0 then runRetriesGo fetch (i + 1) rem (fetches + 1) (sleeps + 1)
      else ([], fetches + 1, sleeps)

/-- Embeds `_run_with_retries` from `tenderbot.py`: `attempts = 1 +
max(0, cfg.retry_attempts)` total tries; a successful fetch returns the
coerced tender list, otherwise the loop sleeps between tries and finally
returns `[]`.  The result carries the fetch-attempt and sleep counts. -/
def run_with_retries (retry_attempts : Int) (fetch : Nat → FetchOutcome) :
    List Tender × Nat × Nat :=
  runRetriesGo fetch 1 (1 + max 0 retry_attempts).toNat 0 0

theorem runRetriesGo_all_fail (fetch : Nat → FetchOutcome)
    (h : ∀ i r, fetch i ≠ FetchOutcome.ok r) :
    ∀ (rem i fetches sleeps : Nat),
      runRetriesGo fetch i (rem + 1) fetches sleeps = ([], fetches + (rem + 1), sleeps + rem)
  | 0, i, f, s => by
    unfold runRetriesGo
    cases hf : fetch i with
    | ok r => exact absurd hf (h i r)
    | exc => simp
    | timeout => simp
  | rem + 1, i, f, s => by
    unfold runRetriesGo
    cases hf : fetch i with
    | ok r => exact absurd hf (h i r)
    | exc =>
      dsimp only
      rw [if_pos (Nat.succ_pos rem), runRetriesGo_all_fail fetch h rem (i + 1) (f + 1) (s + 1)]
      simp only [Prod.mk.injEq, List.nil_eq, true_and]
      refine ⟨by omega, by omega⟩
    | timeout =>
      dsimp only
      rw [if_pos (Nat.succ_pos rem), runRetriesGo_all_fail fetch h rem (i + 1) (f + 1) (s + 1)]
      simp only [Prod.mk.injEq, List.nil_eq, true_and]
      refine ⟨by omega, by omega⟩

/-- Claim C2: when every fetch attempt raises or times out, the retry
orchestrator returns (it never propagates) the empty list after exactly
`max_attempts = 1 + max(0, retry_attempts)` fetch attempts and
`max_attempts - 1` backoff sleeps. -/
theorem C2_run_with_retries_exhaustion (retry_attempts : Int)
    (fetch : Nat → FetchOutcome) (h : ∀ i r, fetch i ≠ FetchOutcome.ok r) :
    run_with_retries retry_attempts fetch =
      ([], (1 + max 0 retry_attempts).toNat, (1 + max 0 retry_attempts).toNat - 1) := by
  unfold run_with_retries
  have h1 : (1 + max 0 retry_attempts).toNat = (max 0 retry_attempts).toNat + 1 := by
    omega
  rw [h1, runRetriesGo_all_fail fetch h]
  simp only [Prod.mk.injEq, List.nil_eq, true_and]
  refine ⟨by omega, by omega⟩

/-- Witness for claim C2: a scraper that always raises, with
`retry_attempts = 1` (the config default), yields the empty list after two
attempts and one sleep. -/
theorem C2_run_with_retries_exhaustion_witness :
    run_with_retries 1 (fun _ => FetchOutcome.exc) = ([], 2, 1) := by
  have h := C2_run_with_retries_exhaustion 1 (fun _ => FetchOutcome.exc)
    (fun i r hir => FetchOutcome.noConfusion hir)
  rw [h]
  simp only [Prod.mk.injEq, true_and]
  constructor
  · show (1 + max 0 1 : Int).toNat = 2
    rfl
  · show (1 + max 0 1 : Int).toNat - 1 = 1
    rfl

/-! ### Claims C5 and C6: the Embedder

Embeds `services/embedder.py`.  The OpenAI client is modelled as a pair of
response functions (`provider` for single calls, `batchProvider` for batch
calls indexed by retry attempt); `none` models a raised exception.  The
mutable `self.cache` dict is explicit state (an association list whose
newest binding wins), and the outputs carry an instrumentation log of the
texts/batches sent to the remote provider. -/

/-- An embedding vector (floats idealised as reals). -/
abbrev Vec := List ℝ

/-- The embedder cache: newest binding first, as a dict model. -/
abbrev EmbCache := List (Str × Vec)

/-- The embedder configuration plus the external provider responses. -/
structure EmbedderCfg where
  embedding_dim : Nat
  embedding_batch_size : Nat
  hasClient : Bool
  provider : Str → Option Vec
  batchProvider : List Str → Nat → Option (List Vec)

/-- Embeds `Embedder._ensure_dim`: keep, truncate, or zero-pad to exactly
`dim` (the `isinstance` coercion is an identity in the typed model). -/
def ensure_dim (vec : Vec) (dim : Nat) : Vec :=
  if vec.length = dim then vec
  else if dim < vec.length then vec.take dim
  else vec ++ List.replicate (dim - vec.length) 0

/-- The first four bytes of a digest as a big-endian integer. -/
def first4ToNat (bs : List Nat) : Nat := wordOfBytes (bs.take 4)

/-- Embeds `Embedder._fallback_vector`: for each index `i`, SHA-256 of
`text + "#" + str(i)`, first four bytes scaled to `[0, 1)`. -/
noncomputable def fallback_vector (text : Str) (dim : Nat) : Vec :=
  (List.range dim).map fun i =>
    (first4ToNat (sha256bytes (utf8Encode (text ++ '#' :: (Nat.repr i).data))) : ℝ) / 4294967296

/-- Result of a single `embed` call: the vector, the updated cache, and
the texts sent to the remote provider (instrumentation). -/
structure EmbedOut where
  vec : Vec
  cache : EmbCache
  providerCalls : List Str

/-- Embeds `Embedder.embed`: strip the text, return zeros for blank input,
consult the cache, otherwise call the provider (or the deterministic
fallback), enforce the dimension, and cache the result. -/
noncomputable def embed (E : EmbedderCfg) (cache : EmbCache) (text : Str) : EmbedOut :=
  let t := pyStrip text
  if t = [] then ⟨List.replicate E.embedding_dim 0, cache, []⟩
  else
    match List.lookup t cache with
    | some v => ⟨v, cache, []⟩
    | none =>
      let vec :=
        if !E.hasClient then fallback_vector t E.embedding_dim
        else
          match E.provider t with
          | some v => v
          | none => fallback_vector t E.embedding_dim
      let v := ensure_dim vec E.embedding_dim
      ⟨v, (t, v) :: cache, if E.hasClient then [t] else []⟩

/-- Result of `embed_many`: the vectors (one per input), the updated
cache, and the batches sent to the remote provider (instrumentation). -/
structure EmbedManyOut where
  results : List Vec
  cache : EmbCache
  providerBatches : List (List Str)

/-- The first pass of `embed_many` over the inputs (index `i`): blank
inputs become zero vectors, cached values are reused, the rest are
collected into `to_query` with their positions in `map_idx`. -/
def embedManyPre (dim : Nat) (cache : EmbCache) :
    List Str → Nat → List (Option Vec) × List Str × List Nat
  | [], _ => ([], [], [])
  | t :: ts, i =>
    let rest := embedManyPre dim cache ts (i + 1)
    let s := pyStrip t
    if s = [] then (some (List.replicate dim 0) :: rest.1, rest.2.1, rest.2.2)
    else
      match List.lookup s cache with
      | some v => (some v :: rest.1, rest.2.1, rest.2.2)
      | none => (none :: rest.1, s :: rest.2.1, i :: rest.2.2)

/-- The per-chunk retry loop of `embed_many`: three attempts, then the
deterministic per-item fallback (retry sleeps are timing-only). -/
noncomputable def batchEmbsWithRetry (E : EmbedderCfg) (batch : List Str) : List Vec :=
  match E.batchProvider batch 0 with
  | some embs => embs
  | none =>
    match E.batchProvider batch 1 with
    | some embs => embs
    | none =>
      match E.batchProvider batch 2 with
      | some embs => embs
      | none => batch.map fun s => fallback_vector s E.embedding_dim

/-- Place one chunk's embeddings: for each `(s, i, vec)` of the zip,
enforce the dimension, cache under `s`, and set position `i`. -/
def placeChunk (dim : Nat) (triples : List (Str × Nat × Vec))
    (acc : List (Option Vec) × EmbCache) : List (Option Vec) × EmbCache :=
  triples.foldl
    (fun acc p =>
      let v := ensure_dim p.2.2 dim
      (acc.1.set p.2.1 (some v), (p.1, v) :: acc.2))
    acc

/-- The chunked provider loop of `embed_many` (`cursor` recursion over
`to_query`); the fuel dominates the list length. -/
noncomputable def embedManyChunks (E : EmbedderCfg) :
    Nat → List Str → List Nat → EmbCache → List (Option Vec) → List (List Str) →
      List (Option Vec) × EmbCache × List (List Str)
  | 0, _, _, cache, results, log => (results, cache, log)
  | _, [], _, cache, results, log => (results, cache, log)
  | fuel + 1, t :: tq, midx, cache, results, log =>
    let chunk := max 1 E.embedding_batch_size
    let batch := (t :: tq).take chunk
    let idxs := midx.take chunk
    let embs := batchEmbsWithRetry E batch
    let placed := placeChunk E.embedding_dim (batch.zip (idxs.zip embs)) (results, cache)
    embedManyChunks E fuel ((t :: tq).drop chunk) (midx.drop chunk) placed.2 placed.1
      (log ++ [batch])

/-- Embeds `Embedder.embed_many`: cache pass, then either nothing to
query, the client-less per-item fallback, or the chunked provider loop;
unfilled positions default to the zero vector. -/
noncomputable def embed_many (E : EmbedderCfg) (cache : EmbCache) (texts : List Str) :
    EmbedManyOut :=
  if texts = [] then ⟨[], cache, []⟩
  else
    let pre := embedManyPre E.embedding_dim cache texts 0
    if pre.2.1 = [] then
      ⟨pre.1.map fun r => r.getD (List.replicate E.embedding_dim 0), cache, []⟩
    else if !E.hasClient then
      let placed := placeChunk E.embedding_dim
        (pre.2.1.zip (pre.2.2.zip (pre.2.1.map fun s => fallback_vector s E.embedding_dim)))
        (pre.1, cache)
      ⟨placed.1.map fun r => r.getD (List.replicate E.embedding_dim 0), placed.2, []⟩
    else
      let out := embedManyChunks E pre.2.1.length pre.2.1 pre.2.2 cache pre.1 []
      ⟨out.1.map fun r => r.getD (List.replicate E.embedding_dim 0), out.2.1, out.2.2⟩

/-- Every cached vector has the configured dimension. -/
def CacheInv (dim : Nat) (c : EmbCache) : Prop := ∀ p ∈ c, (p.2 : Vec).length = dim

/-- Every present entry of the working result list has the configured
dimension. -/
def ResInv (dim : Nat) (rs : List (Option Vec)) : Prop :=
  ∀ v : Vec, some v ∈ rs → v.length = dim

theorem ensure_dim_length (vec : Vec) (dim : Nat) : (ensure_dim vec dim).length = dim := by
  unfold ensure_dim
  split_ifs with h1 h2
  · exact h1
  · simp [List.length_take]
    omega
  · simp
    omega

theorem fallback_vector_length (text : Str) (dim : Nat) :
    (fallback_vector text dim).length = dim := by
  simp [fallback_vector]

theorem cacheInv_lookup {dim : Nat} {c : EmbCache} (hc : CacheInv dim c) :
    ∀ {t : Str} {v : Vec}, List.lookup t c = some v → v.length = dim := by
  induction c with
  | nil => intro t v h; simp at h
  | cons p rest ih =>
    obtain ⟨k, b⟩ := p
    intro t v h
    rw [List.lookup_cons] at h
    by_cases hb : (t == k) = true
    · rw [hb] at h
      have hbv : b = v := by simpa using h
      exact hbv ▸ hc (k, b) (List.mem_cons_self (k, b) rest)
    · have hbf : (t == k) = false := by simpa using hb
      rw [hbf] at h
      exact ih (fun q hq => hc q (List.mem_cons_of_mem (k, b) hq)) h

/-- The single-call part of the dimension invariant. -/
theorem embed_vec_length (E : EmbedderCfg) (cache : EmbCache)
    (hc : CacheInv E.embedding_dim cache) (text : Str) :
    (embed E cache text).vec.length = E.embedding_dim := by
  unfold embed
  by_cases ht : pyStrip text = []
  · rw [if_pos ht]
    simp
  · rw [if_neg ht]
    cases hl : List.lookup (pyStrip text) cache with
    | some v => exact cacheInv_lookup hc hl
    | none => exact ensure_dim_length _ _

theorem embedManyPre_length (dim : Nat) (cache : EmbCache) :
    ∀ (ts : List Str) (i : Nat), (embedManyPre dim cache ts i).1.length = ts.length
  | [], _ => rfl
  | t :: ts, i => by
    unfold embedManyPre
    by_cases ht : pyStrip t = []
    · simp [ht, embedManyPre_length dim cache ts (i + 1)]
    · rw [if_neg ht]
      cases hl : List.lookup (pyStrip t) cache <;>
        simp [embedManyPre_length dim cache ts (i + 1)]

theorem embedManyPre_resInv {dim : Nat} {cache : EmbCache} (hc : CacheInv dim cache) :
    ∀ (ts : List Str) (i : Nat), ResInv dim (embedManyPre dim cache ts i).1
  | [], _ => by intro v hv; simp [embedManyPre] at hv
  | t :: ts, i => by
    intro v hv
    unfold embedManyPre at hv
    by_cases ht : pyStrip t = []
    · rw [if_pos ht] at hv
      rcases List.mem_cons.mp hv with h | h
      · have hveq : v = List.replicate dim 0 := Option.some.injEq _ _ ▸ h
        rw [hveq]
        simp
      · exact embedManyPre_resInv hc ts (i + 1) v h
    · rw [if_neg ht] at hv
      cases hl : List.lookup (pyStrip t) cache with
      | some w =>
        rw [hl] at hv
        rcases List.mem_cons.mp hv with h | h
        · have hvw : v = w := Option.some.injEq _ _ ▸ h
          exact hvw ▸ cacheInv_lookup hc hl
        · exact embedManyPre_resInv hc ts (i + 1) v h
      | none =>
        rw [hl] at hv
        rcases List.mem_cons.mp hv with h | h
        · exact Option.noConfusion h
        · exact embedManyPre_resInv hc ts (i + 1) v h

theorem placeChunk_length (dim : Nat) :
    ∀ (l : List (Str × Nat × Vec)) (acc : List (Option Vec) × EmbCache),
      (placeChunk dim l acc).1.length = acc.1.length
  | [], _ => rfl
  | p :: l, acc => by
    unfold placeChunk
    rw [List.foldl_cons]
    have := placeChunk_length dim l (acc.1.set p.2.1 (some (ensure_dim p.2.2 dim)),
      (p.1, ensure_dim p.2.2 dim) :: acc.2)
    unfold placeChunk at this
    rw [this]
    simp

theorem placeChunk_resInv (dim : Nat) :
    ∀ (l : List (Str × Nat × Vec)) (acc : List (Option Vec) × EmbCache),
      ResInv dim acc.1 → ResInv dim (placeChunk dim l acc).1
  | [], _, h => h
  | p :: l, acc, h => by
    unfold placeChunk
    rw [List.foldl_cons]
    have hstep : ResInv dim (acc.1.set p.2.1 (some (ensure_dim p.2.2 dim))) := by
      intro v hv
      rcases List.mem_or_eq_of_mem_set hv with hmem | heq
      · exact h v hmem
      · exact (Option.some.injEq _ _ ▸ heq) ▸ ensure_dim_length _ _
    have := placeChunk_resInv dim l (acc.1.set p.2.1 (some (ensure_dim p.2.2 dim)),
      (p.1, ensure_dim p.2.2 dim) :: acc.2) hstep
    unfold placeChunk at this
    exact this

theorem embedManyChunks_length (E : EmbedderCfg) :
    ∀ (fuel : Nat) (tq : List Str) (midx : List Nat) (cache : EmbCache)
      (results : List (Option Vec)) (log : List (List Str)),
      (embedManyChunks E fuel tq midx cache results log).1.length = results.length
  | 0, tq, _, _, _, _ => by cases tq <;> rfl
  | _ + 1, [], _, _, _, _ => rfl
  | fuel + 1, t :: tq, midx, cache, results, log => by
    simp only [embedManyChunks]
    rw [embedManyChunks_length E fuel]
    exact placeChunk_length E.embedding_dim _ _

theorem embedManyChunks_resInv (E : EmbedderCfg) :
    ∀ (fuel : Nat) (tq : List Str) (midx : List Nat) (cache : EmbCache)
      (results : List (Option Vec)) (log : List (List Str)),
      ResInv E.embedding_dim results →
      ResInv E.embedding_dim (embedManyChunks E fuel tq midx cache results log).1
  | 0, tq, _, _, _, _, h => by cases tq <;> exact h
  | _ + 1, [], _, _, _, _, h => h
  | fuel + 1, t :: tq, midx, cache, results, log, h => by
    simp only [embedManyChunks]
    exact embedManyChunks_resInv E fuel _ _ _ _ _
      (placeChunk_resInv E.embedding_dim _ _ h)

/-- Claim C5: for every provider behaviour and every cache satisfying the
dimension invariant, `embed` returns a vector of exactly
`embedding_dim` floats, and `embed_many` returns one vector of exactly
`embedding_dim` floats per input text (positionally, in input order). -/
theorem C5_embedding_dim_invariant (E : EmbedderCfg) (cache : EmbCache)
    (hc : CacheInv E.embedding_dim cache) (text : Str) (texts : List Str) :
    (embed E cache text).vec.length = E.embedding_dim ∧
    (embed_many E cache texts).results.length = texts.length ∧
    (∀ v ∈ (embed_many E cache texts).results, v.length = E.embedding_dim) := by
  refine ⟨embed_vec_length E cache hc text, ?_, ?_⟩
  · unfold embed_many
    by_cases h0 : texts = []
    · simp [h0]
    · rw [if_neg h0]
      by_cases h1 : (embedManyPre E.embedding_dim cache texts 0).2.1 = []
      · simp [h1, embedManyPre_length]
      · rw [if_neg h1]
        by_cases h2 : (!E.hasClient) = true
        · rw [if_pos h2]
          simp [placeChunk_length, embedManyPre_length]
        · rw [if_neg h2]
          simp [embedManyChunks_length, embedManyPre_length]
  · intro v hv
    unfold embed_many at hv
    by_cases h0 : texts = []
    · simp [h0] at hv
    · rw [if_neg h0] at hv
      by_cases h1 : (embedManyPre E.embedding_dim cache texts 0).2.1 = []
      · rw [if_pos h1] at hv
        simp only [List.mem_map] at hv
        obtain ⟨r, hr, hrv⟩ := hv
        cases r with
        | none => simp [← hrv]
        | some w =>
          rw [← hrv]
          exact embedManyPre_resInv hc texts 0 w hr
      · rw [if_neg h1] at hv
        by_cases h2 : (!E.hasClient) = true
        · rw [if_pos h2] at hv
          simp only [List.mem_map] at hv
          obtain ⟨r, hr, hrv⟩ := hv
          cases r with
          | none => simp [← hrv]
          | some w =>
            rw [← hrv]
            exact placeChunk_resInv E.embedding_dim _ _
              (embedManyPre_resInv hc texts 0) w hr
        · rw [if_neg h2] at hv
          simp only [List.mem_map] at hv
          obtain ⟨r, hr, hrv⟩ := hv
          cases r with
          | none => simp [← hrv]
          | some w =>
            rw [← hrv]
            exact embedManyChunks_resInv E _ _ _ _ _ _
              (embedManyPre_resInv hc texts 0) w hr

/-- Witness for claim C5: dimension 2, a provider that answers with a
too-long vector, one blank and one non-blank input. -/
noncomputable def c5cfg : EmbedderCfg :=
  { embedding_dim := 2, embedding_batch_size := 128, hasClient := true,
    provider := fun _ => some [1, 0, 0],
    batchProvider := fun _ _ => some [[1, 0, 0]] }

theorem C5_embedding_dim_invariant_witness :
    (embed c5cfg [] (String.data "a")).vec.length = 2 ∧
      (embed_many c5cfg [] [String.data " ", String.data "a"]).results.length = 2 ∧
      (∀ v ∈ (embed_many c5cfg [] [String.data " ", String.data "a"]).results,
        v.length = 2) := by
  have h := C5_embedding_dim_invariant c5cfg [] (fun p hp => absurd hp (List.not_mem_nil p))
    (String.data "a") [String.data " ", String.data "a"]
  exact ⟨h.1, h.2.1, h.2.2⟩

/-! ### Claim C6: blank inputs -/

theorem dropWhile_idem (p : Char → Bool) (l : Str) :
    (l.dropWhile p).dropWhile p = l.dropWhile p :=
  dropWhile_of_head_neg _ (dropWhile_head_neg l)

theorem rdropWhile_idem (p : Char → Bool) (l : Str) :
    (l.rdropWhile p).rdropWhile p = l.rdropWhile p := by
  unfold List.rdropWhile
  rw [List.reverse_reverse, dropWhile_idem]

theorem rdropWhile_head_of (p : Char → Bool) (l : Str) (x : Char) (y : Str)
    (hxy : l.rdropWhile p = x :: y) (hl : ∀ a b, l = a :: b → p a = false) :
    p x = false := by
  obtain ⟨tl, htl⟩ := List.rdropWhile_prefix p (l := l)
  rw [hxy] at htl
  exact hl x (y ++ tl) (by rw [← htl]; simp)

theorem pyStrip_idem (s : Str) : pyStrip (pyStrip s) = pyStrip s := by
  unfold pyStrip
  have h1 : ((s.dropWhile pyIsSpace).rdropWhile pyIsSpace).dropWhile pyIsSpace =
      (s.dropWhile pyIsSpace).rdropWhile pyIsSpace := by
    refine dropWhile_of_head_neg _ ?_
    intro c t hct
    exact rdropWhile_head_of pyIsSpace _ c t hct (dropWhile_head_neg s)
  rw [h1, rdropWhile_idem]

theorem embedManyPre_midx_ge (dim : Nat) (cache : EmbCache) :
    ∀ (ts : List Str) (i0 : Nat), ∀ k ∈ (embedManyPre dim cache ts i0).2.2, i0 ≤ k
  | [], _, k, hk => by simp [embedManyPre] at hk
  | t :: ts, i0, k, hk => by
    unfold embedManyPre at hk
    by_cases ht : pyStrip t = []
    · rw [if_pos ht] at hk
      exact Nat.le_of_succ_le (embedManyPre_midx_ge dim cache ts (i0 + 1) k hk)
    · rw [if_neg ht] at hk
      cases hl : List.lookup (pyStrip t) cache with
      | some w =>
        rw [hl] at hk
        exact Nat.le_of_succ_le (embedManyPre_midx_ge dim cache ts (i0 + 1) k hk)
      | none =>
        rw [hl] at hk
        rcases List.mem_cons.mp hk with h | h
        · exact le_of_eq h.symm
        · exact Nat.le_of_succ_le (embedManyPre_midx_ge dim cache ts (i0 + 1) k h)

theorem embedManyPre_blank (dim : Nat) (cache : EmbCache) :
    ∀ (ts : List Str) (i0 j : Nat) (hj : j < ts.length),
      pyStrip (ts.get ⟨j, hj⟩) = [] →
      (embedManyPre dim cache ts i0).1.getD j none = some (List.replicate dim 0) ∧
        (i0 + j) ∉ (embedManyPre dim cache ts i0).2.2
  | [], _, j, hj => by simp at hj
  | t :: ts, i0, 0, hj => by
    intro hblank
    simp only [List.get] at hblank
    unfold embedManyPre
    rw [if_pos hblank]
    refine ⟨rfl, ?_⟩
    intro hmem
    have := embedManyPre_midx_ge dim cache ts (i0 + 1) (i0 + 0) hmem
    omega
  | t :: ts, i0, j + 1, hj => by
    intro hblank
    simp only [List.get] at hblank
    have hj2 : j < ts.length := Nat.lt_of_succ_lt_succ hj
    have ih := embedManyPre_blank dim cache ts (i0 + 1) j hj2 hblank
    unfold embedManyPre
    by_cases ht : pyStrip t = []
    · rw [if_pos ht]
      refine ⟨ih.1, ?_⟩
      intro hmem
      exact ih.2 (by simpa [Nat.add_assoc, Nat.add_comm 1 j] using hmem)
    · rw [if_neg ht]
      cases hl : List.lookup (pyStrip t) cache with
      | some w =>
        refine ⟨ih.1, ?_⟩
        intro hmem
        exact ih.2 (by simpa [Nat.add_assoc, Nat.add_comm 1 j] using hmem)
      | none =>
        refine ⟨ih.1, ?_⟩
        intro hmem
        rcases List.mem_cons.mp hmem with h | h
        · omega
        · exact ih.2 (by simpa [Nat.add_assoc, Nat.add_comm 1 j] using h)

theorem embedManyPre_tq_nonblank (dim : Nat) (cache : EmbCache) :
    ∀ (ts : List Str) (i0 : Nat), ∀ s ∈ (embedManyPre dim cache ts i0).2.1,
      pyStrip s = s ∧ s ≠ []
  | [], _, s, hs => by simp [embedManyPre] at hs
  | t :: ts, i0, s, hs => by
    unfold embedManyPre at hs
    by_cases ht : pyStrip t = []
    · rw [if_pos ht] at hs
      exact embedManyPre_tq_nonblank dim cache ts (i0 + 1) s hs
    · rw [if_neg ht] at hs
      cases hl : List.lookup (pyStrip t) cache with
      | some w =>
        rw [hl] at hs
        exact embedManyPre_tq_nonblank dim cache ts (i0 + 1) s hs
      | none =>
        rw [hl] at hs
        rcases List.mem_cons.mp hs with h | h
        · subst h
          exact ⟨pyStrip_idem t, ht⟩
        · exact embedManyPre_tq_nonblank dim cache ts (i0 + 1) s h

theorem placeChunk_getD_ne (dim : Nat) :
    ∀ (l : List (Str × Nat × Vec)) (acc : List (Option Vec) × EmbCache) (j : Nat),
      (∀ p ∈ l, p.2.1 ≠ j) →
      (placeChunk dim l acc).1.getD j none = acc.1.getD j none
  | [], _, _, _ => rfl
  | p :: l, acc, j, h => by
    unfold placeChunk
    rw [List.foldl_cons]
    have hrec := placeChunk_getD_ne dim l
      (acc.1.set p.2.1 (some (ensure_dim p.2.2 dim)), (p.1, ensure_dim p.2.2 dim) :: acc.2) j
      (fun q hq => h q (List.mem_cons_of_mem p hq))
    unfold placeChunk at hrec
    rw [hrec]
    simp only [List.getD_eq_getElem?_getD]
    rw [List.getElem?_set_ne (h p (List.mem_cons_self p l))]

theorem embedManyChunks_getD_ne (E : EmbedderCfg) :
    ∀ (fuel : Nat) (tq : List Str) (midx : List Nat) (cache : EmbCache)
      (results : List (Option Vec)) (log : List (List Str)) (j : Nat), j ∉ midx →
      (embedManyChunks E fuel tq midx cache results log).1.getD j none = results.getD j none
  | 0, tq, _, _, _, _, _, _ => by cases tq <;> rfl
  | _ + 1, [], _, _, _, _, _, _ => rfl
  | fuel + 1, t :: tq, midx, cache, results, log, j, hj => by
    simp only [embedManyChunks]
    rw [embedManyChunks_getD_ne E fuel _ _ _ _ _ j
      (fun hmem => hj (List.drop_subset _ midx hmem))]
    refine placeChunk_getD_ne E.embedding_dim _ _ j ?_
    intro p hp
    obtain ⟨x, yz⟩ := p
    obtain ⟨y, z⟩ := yz
    have := List.of_mem_zip hp
    have hy := (List.of_mem_zip this.2).1
    intro he
    have he2 : y = j := he
    exact hj (List.take_subset _ midx (he2 ▸ hy))

theorem embedManyChunks_log_pred (E : EmbedderCfg) (P : Str → Prop) :
    ∀ (fuel : Nat) (tq : List Str) (midx : List Nat) (cache : EmbCache)
      (results : List (Option Vec)) (log : List (List Str)),
      (∀ s ∈ tq, P s) → (∀ b ∈ log, ∀ s ∈ b, P s) →
      ∀ b ∈ (embedManyChunks E fuel tq midx cache results log).2.2, ∀ s ∈ b, P s
  | 0, tq, _, _, _, _, htq, hlog => by cases tq <;> exact hlog
  | _ + 1, [], _, _, _, _, htq, hlog => hlog
  | fuel + 1, t :: tq, midx, cache, results, log, htq, hlog => by
    simp only [embedManyChunks]
    refine embedManyChunks_log_pred E P fuel _ _ _ _ _ ?_ ?_
    · intro s hs
      exact htq s (List.drop_subset _ _ hs)
    · intro b hb s hs
      rcases List.mem_append.mp hb with h | h
      · exact hlog b h s hs
      · have : b = (t :: tq).take (max 1 E.embedding_batch_size) := by simpa using h
        exact htq s (List.take_subset _ _ (this ▸ hs))

/-- Defaulting the map of a result list at a position holding the zero
vector yields the zero vector. -/
theorem getD_map_zeros {dim : Nat} (rs : List (Option Vec)) (j : Nat) (hj : j < rs.length)
    (h : rs.getD j none = some (List.replicate dim 0)) :
    (rs.map fun r => r.getD (List.replicate dim 0)).getD j [] = List.replicate dim 0 := by
  simp only [List.getD_eq_getElem?_getD] at h ⊢
  rw [List.getElem?_eq_getElem hj] at h
  simp only [Option.getD_some] at h
  rw [List.getElem?_map, List.getElem?_eq_getElem hj]
  simp [h]

/-- Claim C6: blank (empty or all-whitespace) input always yields the
all-zeros vector of length `embedding_dim` without any remote provider
call ― for `embed`, and positionally for each blank element of
`embed_many`, whose provider batches contain only non-blank texts. -/
theorem C6_blank_embedding (E : EmbedderCfg) (cache : EmbCache) :
    (∀ text, pyStrip text = [] →
      embed E cache text = ⟨List.replicate E.embedding_dim 0, cache, []⟩) ∧
    (∀ texts (j : Nat) (hj : j < texts.length), pyStrip (texts.get ⟨j, hj⟩) = [] →
      (embed_many E cache texts).results.getD j [] = List.replicate E.embedding_dim 0) ∧
    (∀ texts, ∀ b ∈ (embed_many E cache texts).providerBatches, ∀ s ∈ b, pyStrip s ≠ []) := by
  refine ⟨?_, ?_, ?_⟩
  · intro text ht
    unfold embed
    rw [if_pos ht]
  · intro texts j hj hblank
    have htne : texts ≠ [] := by
      intro h
      rw [h] at hj
      simp at hj
    have hpre := embedManyPre_blank E.embedding_dim cache texts 0 j hj hblank
    have hlen : (embedManyPre E.embedding_dim cache texts 0).1.length = texts.length :=
      embedManyPre_length E.embedding_dim cache texts 0
    unfold embed_many
    rw [if_neg htne]
    by_cases h1 : (embedManyPre E.embedding_dim cache texts 0).2.1 = []
    · rw [if_pos h1]
      exact getD_map_zeros _ j (by omega) hpre.1
    · rw [if_neg h1]
      by_cases h2 : (!E.hasClient) = true
      · rw [if_pos h2]
        have hidx : ∀ p ∈ (embedManyPre E.embedding_dim cache texts 0).2.1.zip
            ((embedManyPre E.embedding_dim cache texts 0).2.2.zip
              ((embedManyPre E.embedding_dim cache texts 0).2.1.map
                fun s => fallback_vector s E.embedding_dim)),
            (p : Str × Nat × Vec).2.1 ≠ j := by
          intro p hp
          obtain ⟨x, yz⟩ := p
          obtain ⟨y, z⟩ := yz
          have hy := (List.of_mem_zip (List.of_mem_zip hp).2).1
          intro he
          have he2 : y = j := he
          exact hpre.2 (by simpa using he2 ▸ hy)
        have hplaced := placeChunk_getD_ne E.embedding_dim
          ((embedManyPre E.embedding_dim cache texts 0).2.1.zip
            ((embedManyPre E.embedding_dim cache texts 0).2.2.zip
              ((embedManyPre E.embedding_dim cache texts 0).2.1.map
                fun s => fallback_vector s E.embedding_dim)))
          ((embedManyPre E.embedding_dim cache texts 0).1, cache) j hidx
        have hplen := placeChunk_length E.embedding_dim
          ((embedManyPre E.embedding_dim cache texts 0).2.1.zip
            ((embedManyPre E.embedding_dim cache texts 0).2.2.zip
              ((embedManyPre E.embedding_dim cache texts 0).2.1.map
                fun s => fallback_vector s E.embedding_dim)))
          ((embedManyPre E.embedding_dim cache texts 0).1, cache)
        exact getD_map_zeros _ j (by rw [hplen]; simp only []; omega)
          (hplaced.trans hpre.1)
      · rw [if_neg h2]
        have hch := embedManyChunks_getD_ne E
          (embedManyPre E.embedding_dim cache texts 0).2.1.length
          (embedManyPre E.embedding_dim cache texts 0).2.1
          (embedManyPre E.embedding_dim cache texts 0).2.2 cache
          (embedManyPre E.embedding_dim cache texts 0).1 [] j (by simpa using hpre.2)
        have hclen := embedManyChunks_length E
          (embedManyPre E.embedding_dim cache texts 0).2.1.length
          (embedManyPre E.embedding_dim cache texts 0).2.1
          (embedManyPre E.embedding_dim cache texts 0).2.2 cache
          (embedManyPre E.embedding_dim cache texts 0).1 []
        exact getD_map_zeros _ j (by rw [hclen]; omega) (hch.trans hpre.1)
  · intro texts b hb s hs
    unfold embed_many at hb
    by_cases h0 : texts = []
    · simp [h0] at hb
    · rw [if_neg h0] at hb
      by_cases h1 : (embedManyPre E.embedding_dim cache texts 0).2.1 = []
      · rw [if_pos h1] at hb
        simp at hb
      · rw [if_neg h1] at hb
        by_cases h2 : (!E.hasClient) = true
        · rw [if_pos h2] at hb
          simp at hb
        · rw [if_neg h2] at hb
          have := embedManyChunks_log_pred E (fun s => pyStrip s ≠ [])
            (embedManyPre E.embedding_dim cache texts 0).2.1.length
            (embedManyPre E.embedding_dim cache texts 0).2.1
            (embedManyPre E.embedding_dim cache texts 0).2.2 cache
            (embedManyPre E.embedding_dim cache texts 0).1 []
            (fun q hq => by
              have h := embedManyPre_tq_nonblank E.embedding_dim cache texts 0 q hq
              show pyStrip q ≠ []
              rw [h.1]
              exact h.2)
            (by intro b hb; simp at hb)
          exact this b hb s hs

/-- Configuration for the C6 witness: dimension 2, a client whose calls
would fail. -/
def c6cfg : EmbedderCfg :=
  { embedding_dim := 2, embedding_batch_size := 128, hasClient := true,
    provider := fun _ => none, batchProvider := fun _ _ => none }

/-- Witness for claim C6: a whitespace-only text embeds to the zero vector
with no provider call, and the blank first element of a batch maps to the
zero vector. -/
theorem C6_blank_embedding_witness :
    (embed c6cfg [] (String.data "  ")).vec = List.replicate 2 0 ∧
      (embed c6cfg [] (String.data "  ")).providerCalls = [] ∧
      (embed_many c6cfg [] [String.data " ", String.data "a"]).results.getD 0 [] =
        List.replicate 2 0 := by
  have h := C6_blank_embedding c6cfg []
  refine ⟨?_, ?_, ?_⟩
  · exact congrArg EmbedOut.vec (h.1 (String.data "  ") (by decide))
  · exact congrArg EmbedOut.providerCalls (h.1 (String.data "  ") (by decide))
  · exact h.2.1 [String.data " ", String.data "a"] 0 (by decide) (by decide)

/-! ### Claims C3, C9, C10: the relevance filter

Embeds `services/relevance_filter.py`.  The embedder is abstracted as a
pure text-to-vector function (the spec's own treatment of the embedding
provider); records enter through their `(title, description)` fields, as
`_title_desc` extracts them from either shape. -/

theorem leadsWith_iff : ∀ (n h : Str), leadsWith n h = true ↔ ∃ q, h = n ++ q
  | [], h => by simp [leadsWith]
  | _ :: _, [] => by simp [leadsWith]
  | a :: n, b :: h => by
    simp only [leadsWith, Bool.and_eq_true, decide_eq_true_eq]
    constructor
    · rintro ⟨rfl, hr⟩
      obtain ⟨q, rfl⟩ := (leadsWith_iff n h).mp hr
      exact ⟨q, rfl⟩
    · rintro ⟨q, hq⟩
      rw [List.cons_append] at hq
      injection hq with h1 h2
      exact ⟨h1.symm, (leadsWith_iff n h).mpr ⟨q, h2⟩⟩

theorem isSubstrOf_iff (n : Str) : ∀ (h : Str),
    isSubstrOf n h = true ↔ ∃ p q, h = p ++ n ++ q
  | [] => by
    simp only [isSubstrOf, leadsWith_iff]
    constructor
    · rintro ⟨q, hq⟩
      exact ⟨[], q, by simp [hq]⟩
    · rintro ⟨p, q, hpq⟩
      cases p with
      | nil => exact ⟨q, by simpa using hpq⟩
      | cons x xs => simp at hpq
  | b :: h => by
    simp only [isSubstrOf, Bool.or_eq_true, leadsWith_iff, isSubstrOf_iff n h]
    constructor
    · rintro (⟨q, hq⟩ | ⟨p, q, hpq⟩)
      · exact ⟨[], q, by simp [hq]⟩
      · exact ⟨b :: p, q, by simp [hpq]⟩
    · rintro ⟨p, q, hpq⟩
      cases p with
      | nil => exact Or.inl ⟨q, by simpa using hpq⟩
      | cons x xs =>
        rw [List.cons_append, List.cons_append] at hpq
        injection hpq with h1 h2
        exact Or.inr ⟨xs, q, h2⟩

theorem isSubstrOf_trans {a b c : Str} (hab : isSubstrOf a b = true)
    (hbc : isSubstrOf b c = true) : isSubstrOf a c = true := by
  obtain ⟨p1, q1, rfl⟩ := (isSubstrOf_iff a b).mp hab
  obtain ⟨p2, q2, rfl⟩ := (isSubstrOf_iff _ c).mp hbc
  exact (isSubstrOf_iff a _).mpr ⟨p2 ++ p1, q1 ++ q2, by simp⟩

theorem mem_of_isSubstrOf {n h : Str} (hs : isSubstrOf n h = true) :
    ∀ c ∈ n, c ∈ h := by
  obtain ⟨p, q, rfl⟩ := (isSubstrOf_iff n h).mp hs
  intro c hc
  simp [hc]

theorem toNat_ofNat_ascii (n : Nat) (h1 : 97 ≤ n) (h2 : n ≤ 122) :
    (Char.ofNat n).toNat = n := by
  interval_cases n <;> decide

theorem asciiLowerChar_not_upper (c : Char) :
    ¬(65 ≤ (asciiLowerChar c).toNat ∧ (asciiLowerChar c).toNat ≤ 90) := by
  unfold asciiLowerChar
  by_cases h : 65 ≤ c.toNat ∧ c.toNat ≤ 90
  · rw [if_pos h]
    rw [toNat_ofNat_ascii (c.toNat + 32) (by omega) (by omega)]
    omega
  · rw [if_neg h]
    exact h

theorem asciiLowerChar_eq_self (c : Char)
    (h : ¬(65 ≤ c.toNat ∧ c.toNat ≤ 90)) : asciiLowerChar c = c := by
  unfold asciiLowerChar
  rw [if_neg h]

theorem asciiLower_eq_self {s : Str}
    (h : ∀ c ∈ s, ¬(65 ≤ c.toNat ∧ c.toNat ≤ 90)) : asciiLower s = s := by
  unfold asciiLower
  induction s with
  | nil => rfl
  | cons c t ih =>
    rw [List.map_cons, asciiLowerChar_eq_self c (h c (List.mem_cons_self c t)),
      ih fun d hd => h d (List.mem_cons_of_mem c hd)]

theorem mem_asciiLower_not_upper {c : Char} {s : Str} (h : c ∈ asciiLower s) :
    ¬(65 ≤ c.toNat ∧ c.toNat ≤ 90) := by
  obtain ⟨d, _, rfl⟩ := List.mem_map.mp h
  exact asciiLowerChar_not_upper d

theorem pyStrip_isSubstrOf (k : Str) : isSubstrOf (pyStrip k) k = true := by
  refine (isSubstrOf_iff (pyStrip k) k).mpr ?_
  obtain ⟨tl, htl⟩ := List.rdropWhile_prefix pyIsSpace (l := k.dropWhile pyIsSpace)
  refine ⟨k.takeWhile pyIsSpace, tl, ?_⟩
  conv_lhs => rw [← List.takeWhile_append_dropWhile pyIsSpace k]
  rw [← htl]
  simp [pyStrip]

theorem mem_pyStrip_of_nonspace {c : Char} {k : Str} (hc : c ∈ k)
    (hns : pyIsSpace c = false) : c ∈ pyStrip k := by
  unfold pyStrip
  have h1 : c ∈ k.dropWhile pyIsSpace := by
    rcases List.mem_append.mp
        ((List.takeWhile_append_dropWhile pyIsSpace k).symm ▸ hc) with h | h
    · exact absurd (List.mem_takeWhile_imp h) (by simp [hns])
    · exact h
  set u := k.dropWhile pyIsSpace
  have h2 : u.reverse = u.reverse.takeWhile pyIsSpace ++ u.reverse.dropWhile pyIsSpace :=
    (List.takeWhile_append_dropWhile pyIsSpace u.reverse).symm
  have h3 : c ∈ u.reverse := List.mem_reverse.mpr h1
  rcases List.mem_append.mp (h2 ▸ h3) with h | h
  · exact absurd (List.mem_takeWhile_imp h) (by simp [hns])
  · unfold List.rdropWhile
    exact List.mem_reverse.mpr h

theorem pyStrip_ne_nil_of_nonspace {k : Str} (h : ∃ c ∈ k, pyIsSpace c = false) :
    pyStrip k ≠ [] := by
  obtain ⟨c, hc, hns⟩ := h
  intro he
  exact absurd (he ▸ mem_pyStrip_of_nonspace hc hns) (List.not_mem_nil c)

/-- The configuration slice the relevance filter and driver read. -/
structure FilterCfg where
  keywords : List Str
  similarity_threshold : ℝ

/-- The fallback generic procurement-intent query text embedded when no
keywords survive normalisation. -/
def fallbackQueryText : Str :=
  String.data ("request for tender rft rfp rfi rfq government procurement " ++
    "it services software cloud cyber data analytics consulting integration managed services")

/-- The relevance filter state built by `RelevanceFilter.__init__`:
normalised keywords, embedded query vector, threshold. -/
structure RelFilter where
  keywords : List Str
  query_vec : Vec
  threshold : ℝ

/-- Embeds `RelevanceFilter.__init__`: keep the non-blank keywords
stripped and lower-cased, embed their space-joined concatenation (or the
generic fallback phrase), take the configured threshold. -/
def mkFilter (cfg : FilterCfg) (embedF : Str → Vec) : RelFilter :=
  let kws := (cfg.keywords.filter fun k => !k.isEmpty && !(pyStrip k).isEmpty).map
    fun k => asciiLower (pyStrip k)
  { keywords := kws
    query_vec := embedF (if !kws.isEmpty then List.intercalate [' '] kws else fallbackQueryText)
    threshold := cfg.similarity_threshold }

/-- The lower-cased `title + "\n" + description` haystack (missing fields
become empty strings). -/
def relevanceHay (title desc : Option Str) : Str :=
  asciiLower (title.getD [] ++ '\n' :: desc.getD [])

/-- The keyword stage of `is_relevant`:
`self._keywords and any(k in hay for k in self._keywords)`. -/
def kwStage (F : RelFilter) (title desc : Option Str) : Bool :=
  !F.keywords.isEmpty && F.keywords.any fun k => isSubstrOf k (relevanceHay title desc)

/-- The text the similarity stage embeds:
`f"{title or ''} {desc or ''}".strip()`. -/
def simText (title desc : Option Str) : Str :=
  pyStrip (title.getD [] ++ ' ' :: desc.getD [])

/-- Embeds `RelevanceFilter.is_relevant` as a predicate: keyword hit, else
cosine similarity of the embedded record text against the query vector at
least the threshold. -/
def is_relevant (F : RelFilter) (embedF : Str → Vec) (title desc : Option Str) : Prop :=
  if kwStage F title desc then True
  else F.threshold ≤ cosine_similarity F.query_vec (embedF (simText title desc))

/-- The texts `is_relevant` passes to the embedder: none on a keyword hit
(the instrumented mirror of the same guard). -/
def is_relevant_embed_calls (F : RelFilter) (title desc : Option Str) : List Str :=
  if kwStage F title desc then [] else [simText title desc]

/-- The dictionary `RelevanceFilter.explain` returns. -/
structure ExplainOut where
  kw_hit : Bool
  similarity : ℝ
  threshold : ℝ
  decision : Prop
  title_preview : Str

/-- Embeds `RelevanceFilter.explain`: always embeds and computes the
similarity; the decision is `kw_hit or sim >= threshold`. -/
noncomputable def explain (F : RelFilter) (embedF : Str → Vec) (title desc : Option Str) :
    ExplainOut :=
  let kw_hit := kwStage F title desc
  let sim := cosine_similarity F.query_vec (embedF (simText title desc))
  { kw_hit := kw_hit
    similarity := sim
    threshold := F.threshold
    decision := kw_hit = true ∨ F.threshold ≤ sim
    title_preview := (title.getD []).take 140 }

/-- Claim C9: for every record and every filter state, the `decision`
field of `explain` is equivalent to `is_relevant` on the same record (both
are keyword-hit OR similarity ≥ threshold over the same embedded text). -/
theorem C9_explain_decision_equiv (F : RelFilter) (embedF : Str → Vec)
    (title desc : Option Str) :
    is_relevant F embedF title desc ↔ (explain F embedF title desc).decision := by
  unfold is_relevant explain
  by_cases h : kwStage F title desc = true
  · simp [h]
  · simp [h]

/-- Core keyword lemma: a raw configured keyword containing a
non-whitespace character that occurs verbatim in the (lower-cased)
haystack survives normalisation and fires the keyword stage. -/
theorem kwHit_implies_kwStage (cfg : FilterCfg) (embedF : Str → Vec)
    (title desc : Option Str) {k : Str} (hk : k ∈ cfg.keywords)
    (hnb : ∃ c ∈ k, pyIsSpace c = false)
    (hsub : isSubstrOf k (relevanceHay title desc) = true) :
    kwStage (mkFilter cfg embedF) title desc = true := by
  have hkne : k ≠ [] := by
    rintro rfl
    obtain ⟨c, hc, _⟩ := hnb
    exact absurd hc (List.not_mem_nil c)
  have hstrip_ne : pyStrip k ≠ [] := pyStrip_ne_nil_of_nonspace hnb
  have hlow : ∀ c ∈ pyStrip k, ¬(65 ≤ c.toNat ∧ c.toNat ≤ 90) := by
    intro c hc
    have hck : c ∈ k := mem_of_isSubstrOf (pyStrip_isSubstrOf k) c hc
    exact mem_asciiLower_not_upper (mem_of_isSubstrOf hsub c hck)
  have hfix : asciiLower (pyStrip k) = pyStrip k := asciiLower_eq_self hlow
  have hmem : asciiLower (pyStrip k) ∈ (mkFilter cfg embedF).keywords := by
    simp only [mkFilter]
    refine List.mem_map.mpr ⟨k, List.mem_filter.mpr ⟨hk, ?_⟩, rfl⟩
    simp [hkne, hstrip_ne]
  have hsub2 : isSubstrOf (asciiLower (pyStrip k)) (relevanceHay title desc) = true := by
    rw [hfix]
    exact isSubstrOf_trans (pyStrip_isSubstrOf k) hsub
  unfold kwStage
  rw [Bool.and_eq_true]
  refine ⟨?_, List.any_eq_true.mpr ⟨_, hmem, hsub2⟩⟩
  simp [List.isEmpty_iff]
  exact List.ne_nil_of_mem hmem

/-- The trivial embedder used by concrete witnesses. -/
def embed0 : Str → Vec := fun _ => []

/-- Configuration with a whitespace-only keyword. -/
def c3badcfg : FilterCfg :=
  { keywords := [String.data "   "], similarity_threshold := 1 }

/-- Claim C3, counterexample: the keyword `"   "` is non-empty and occurs
in the record's haystack, but keyword normalisation drops it (it is blank
after `strip()`), so `is_relevant` falls through to the similarity stage
and the embedder IS invoked on the record's text — the claim fails for
non-empty but all-whitespace keywords. -/
theorem C3_blank_keyword_counterexample :
    String.data "   " ∈ c3badcfg.keywords ∧ String.data "   " ≠ [] ∧
      isSubstrOf (String.data "   ")
        (relevanceHay (some (String.data "a   b")) none) = true ∧
      is_relevant_embed_calls (mkFilter c3badcfg embed0)
        (some (String.data "a   b")) none ≠ [] := by
  exact ⟨by decide, by decide, by decide, by decide⟩

/-- Claim C3 (amended: the configured keyword must be non-blank — contain
a non-whitespace character — not merely non-empty): if such a keyword
occurs as a substring of the record's lower-cased `title\n description`
haystack, `is_relevant` returns true and the embedder is not invoked on
the record's text. -/
theorem C3_keyword_short_circuit (cfg : FilterCfg) (embedF : Str → Vec)
    (title desc : Option Str) (k : Str) (hk : k ∈ cfg.keywords)
    (hnb : ∃ c ∈ k, pyIsSpace c = false)
    (hsub : isSubstrOf k (relevanceHay title desc) = true) :
    is_relevant (mkFilter cfg embedF) embedF title desc ∧
      is_relevant_embed_calls (mkFilter cfg embedF) title desc = [] := by
  have h := kwHit_implies_kwStage cfg embedF title desc hk hnb hsub
  constructor
  · unfold is_relevant
    rw [if_pos h]
    trivial
  · unfold is_relevant_embed_calls
    rw [if_pos h]

/-- Configuration with the spec's example keyword. -/
def c3cfg : FilterCfg :=
  { keywords := [String.data "cybersecurity"], similarity_threshold := 1 }

/-- Witness for claim C3: keyword `cybersecurity`, record title
`Cybersecurity Upgrade` — relevant, no embedder invocation. -/
theorem C3_keyword_short_circuit_witness :
    String.data "cybersecurity" ∈ c3cfg.keywords ∧
      isSubstrOf (String.data "cybersecurity")
        (relevanceHay (some (String.data "Cybersecurity Upgrade")) none) = true ∧
      is_relevant (mkFilter c3cfg embed0) embed0
        (some (String.data "Cybersecurity Upgrade")) none ∧
      is_relevant_embed_calls (mkFilter c3cfg embed0)
        (some (String.data "Cybersecurity Upgrade")) none = [] := by
  have h := C3_keyword_short_circuit c3cfg embed0
    (some (String.data "Cybersecurity Upgrade")) none (String.data "cybersecurity")
    (by decide) (by decide) (by decide)
  exact ⟨by decide, by decide, h.1, h.2⟩

/-! ### Claim C10: the similarity-skip counter is dead -/

/-- The `(title, description)` fields of one scraped record as the
statistics loop of `run_once` reads them. -/
structure RecFields where
  title : Option Str
  description : Option Str

/-- One step of the relevance-statistics loop of `TenderBot.run_once`:
the driver recomputes the keyword hit over the raw configured keywords
(for stats only), asks the filter for the decision (`dec` is the boolean
the driver receives from `RelevanceFilter.is_relevant`), and counts a
rejection as a keyword-stage or similarity-stage miss. -/
def statsStep (cfg : FilterCfg) (dec : RecFields → Bool)
    (acc : Nat × Nat) (t : RecFields) : Nat × Nat :=
  let kw_hit := cfg.keywords.any fun k => isSubstrOf k (relevanceHay t.title t.description)
  if dec t then acc
  else if !kw_hit then (acc.1 + 1, acc.2) else (acc.1, acc.2 + 1)

/-- The `(skipped_kw, skipped_sim)` counters after the relevance loop of
`run_once`. -/
def runOnceStats (cfg : FilterCfg) (dec : RecFields → Bool) (ts : List RecFields) :
    Nat × Nat :=
  ts.foldl (statsStep cfg dec) (0, 0)

theorem statsStep_snd (cfg : FilterCfg) (dec : RecFields → Bool) (acc : Nat × Nat)
    (t : RecFields)
    (h : dec t = false →
      (cfg.keywords.any fun k => isSubstrOf k (relevanceHay t.title t.description)) = false) :
    (statsStep cfg dec acc t).2 = acc.2 := by
  unfold statsStep
  by_cases hd : dec t = true
  · rw [if_pos hd]
  · have hd2 : dec t = false := by simpa using hd
    rw [if_neg (by simp [hd2]), if_pos (by simp [h hd2])]

theorem foldl_statsStep_snd (cfg : FilterCfg) (dec : RecFields → Bool)
    (h : ∀ t : RecFields, dec t = false →
      (cfg.keywords.any fun k => isSubstrOf k (relevanceHay t.title t.description)) = false) :
    ∀ (ts : List RecFields) (acc : Nat × Nat), (ts.foldl (statsStep cfg dec) acc).2 = acc.2
  | [], _ => rfl
  | t :: ts, acc => by
    rw [List.foldl_cons, foldl_statsStep_snd cfg dec h ts, statsStep_snd cfg dec acc t (h t)]

/-- Claim C10: when every configured keyword contains a non-whitespace
character and the decision procedure agrees with
`RelevanceFilter.is_relevant` (as built by the constructor), the
`skipped_sim` counter is 0 at the end of the relevance loop for every
record list: a keyword hit always makes the filter accept, so every
rejection increments `skipped_kw`. -/
theorem C10_skipped_sim_always_zero (cfg : FilterCfg) (embedF : Str → Vec)
    (dec : RecFields → Bool)
    (hkw : ∀ k ∈ cfg.keywords, ∃ c ∈ k, pyIsSpace c = false)
    (hdec : ∀ t : RecFields,
      dec t = true ↔ is_relevant (mkFilter cfg embedF) embedF t.title t.description)
    (ts : List RecFields) :
    (runOnceStats cfg dec ts).2 = 0 := by
  unfold runOnceStats
  refine foldl_statsStep_snd cfg dec ?_ ts (0, 0)
  intro t hd
  by_contra hany
  have hany2 : (cfg.keywords.any fun k =>
      isSubstrOf k (relevanceHay t.title t.description)) = true := by
    simpa using hany
  obtain ⟨k, hkmem, hksub⟩ := List.any_eq_true.mp hany2
  have hrel : is_relevant (mkFilter cfg embedF) embedF t.title t.description := by
    unfold is_relevant
    rw [if_pos (kwHit_implies_kwStage cfg embedF t.title t.description hkmem
      (hkw k hkmem) hksub)]
    trivial
  rw [(hdec t).mpr hrel] at hd
  exact Bool.noConfusion hd

/-- Configuration for the C10 witness. -/
def c10cfg : FilterCfg :=
  { keywords := [String.data "it"], similarity_threshold := 1 }

/-- A concrete decision procedure: with the trivial embedder every
similarity is 0, so the filter decision reduces to the keyword stage. -/
def c10dec : RecFields → Bool :=
  fun t => kwStage (mkFilter c10cfg embed0) t.title t.description

/-- Witness for claim C10: a run over one keyword-hit record and one
fully rejected record leaves `skipped_sim` at 0. -/
theorem C10_skipped_sim_always_zero_witness :
    (runOnceStats c10cfg c10dec
      [⟨some (String.data "managed it services"), none⟩,
        ⟨some (String.data "zzz"), none⟩]).2 = 0 := by
  refine C10_skipped_sim_always_zero c10cfg embed0 c10dec (by decide) ?_ _
  intro t
  constructor
  · intro h
    unfold is_relevant
    rw [if_pos (by simpa [c10dec] using h)]
    trivial
  · intro h
    unfold is_relevant at h
    by_cases hks : kwStage (mkFilter c10cfg embed0) t.title t.description = true
    · simpa [c10dec] using hks
    · rw [if_neg hks] at h
      exfalso
      have hz : cosine_similarity (mkFilter c10cfg embed0).query_vec
          (embed0 (simText t.title t.description)) = 0 := by
        simp [embed0, cosine_similarity]
      rw [hz] at h
      have hth : (mkFilter c10cfg embed0).threshold = 1 := rfl
      rw [hth] at h
      norm_num at h

/-! ### Claim C7: newly-inserted-only downstream processing

Embeds the post-upsert phase of `TenderBot.run_once` (steps 3 of the
source): the store's reply is the list of returned rows' optional
`tender_hash` values; the downstream side effects are recorded as an
action trace tagged with the row they are performed for. -/

/-- The fields of an upserted row that the downstream loop reads. -/
structure DbRow where
  tender_hash : Str
  title : Option Str
  description : Option Str
deriving DecidableEq

/-- One observable downstream side effect, tagged with its row. -/
inductive DownstreamAction where
  | computeEmbedding (r : DbRow)
  | persistEmbedding (r : DbRow)
  | notify (r : DbRow)
  | markNotified (r : DbRow)
  | crmPush (r : DbRow)
deriving DecidableEq

/-- Embeds the `inserted_hashes` extraction of `run_once`: the truthy
`tender_hash` values of the rows the upsert returned (`d.get` may be
absent/None, and empty strings are falsy). -/
def insertedHashes (inserted : List (Option Str)) : List Str :=
  (inserted.filterMap id).filter fun h => !h.isEmpty

/-- Embeds the downstream loop of `run_once`: keep the upserted rows
whose hash was reported newly inserted; for each, embed
`f"{title} {description}".strip()`, persist the embedding when the vector
is truthy (non-empty), notify, stamp `notified_at`, push to CRM. -/
def downstream (embedF : Str → Vec) (rows : List DbRow) (inserted : List (Option Str)) :
    List DownstreamAction :=
  let hs := insertedHashes inserted
  let inserted_rows := rows.filter fun r => decide (r.tender_hash ∈ hs)
  inserted_rows.flatMap fun r =>
    let vec := embedF (pyStrip (r.title.getD [] ++ ' ' :: r.description.getD []))
    DownstreamAction.computeEmbedding r ::
      ((if !vec.isEmpty then [DownstreamAction.persistEmbedding r] else []) ++
        [DownstreamAction.notify r, DownstreamAction.markNotified r,
          DownstreamAction.crmPush r])

/-- Claim C7: with a positive embedding dimension (the embedder never
returns an empty vector), the set of rows that get an embedding computed,
the embedding persisted, a notification, a `notified_at` stamp, and a CRM
push is exactly the subset of the upserted batch whose `tender_hash` is in
the store's newly-inserted reply; rows reported pre-existing undergo none
of these steps. -/
theorem C7_newly_inserted_only (embedF : Str → Vec) (hembed : ∀ t, embedF t ≠ [])
    (rows : List DbRow) (inserted : List (Option Str)) (r : DbRow) :
    (DownstreamAction.computeEmbedding r ∈ downstream embedF rows inserted ↔
      r ∈ rows ∧ r.tender_hash ∈ insertedHashes inserted) ∧
    (DownstreamAction.persistEmbedding r ∈ downstream embedF rows inserted ↔
      r ∈ rows ∧ r.tender_hash ∈ insertedHashes inserted) ∧
    (DownstreamAction.notify r ∈ downstream embedF rows inserted ↔
      r ∈ rows ∧ r.tender_hash ∈ insertedHashes inserted) ∧
    (DownstreamAction.markNotified r ∈ downstream embedF rows inserted ↔
      r ∈ rows ∧ r.tender_hash ∈ insertedHashes inserted) ∧
    (DownstreamAction.crmPush r ∈ downstream embedF rows inserted ↔
      r ∈ rows ∧ r.tender_hash ∈ insertedHashes inserted) := by
  have hvec : ∀ q : DbRow,
      (!(embedF (pyStrip (q.title.getD [] ++ ' ' :: q.description.getD []))).isEmpty) = true := by
    intro q
    simp [List.isEmpty_iff, hembed _]
  refine ⟨?_, ?_, ?_, ?_, ?_⟩ <;>
    simp [downstream, List.mem_flatMap, List.mem_filter, hvec, and_comm, eq_comm]

/-- Concrete rows for the C7 witness: `h1` is reported newly inserted,
`h2` is not. -/
def c7rowA : DbRow := ⟨String.data "h1", some (String.data "T"), none⟩

def c7rowB : DbRow := ⟨String.data "h2", none, none⟩

/-- An embedder that always returns a one-entry vector. -/
def embedOne : Str → Vec := fun _ => [0]

/-- Witness for claim C7: with reply `[h1]`, row `h1` is notified and row
`h2` triggers no `notified_at` stamp. -/
theorem C7_newly_inserted_only_witness :
    DownstreamAction.notify c7rowA ∈
      downstream embedOne [c7rowA, c7rowB] [some (String.data "h1"), none] ∧
    DownstreamAction.markNotified c7rowB ∉
      downstream embedOne [c7rowA, c7rowB] [some (String.data "h1"), none] := by
  have hone : ∀ t, embedOne t ≠ [] := fun t => by simp [embedOne]
  constructor
  · exact (C7_newly_inserted_only embedOne hone [c7rowA, c7rowB]
      [some (String.data "h1"), none] c7rowA).2.2.1.mpr (by decide)
  · intro hmem
    exact absurd ((C7_newly_inserted_only embedOne hone [c7rowA, c7rowB]
      [some (String.data "h1"), none] c7rowB).2.2.2.1.mp hmem) (by decide)

end Tenderbot
